import Mathlib

/-!
# Goroutine patterns of `goroutines.go`

A shallow embedding of the three concurrent programs of
`demo-playground/public/examples/go/goroutines.go`:

* the worker pool (`worker`, `main`),
* the pipeline stages (`generate`, `square`),
* the fan-in (`merge`).

Every goroutine is a small program counter; a scheduler picks which goroutine
takes its next atomic step.  A step function returns `none` when the chosen
goroutine is blocked (or has exited), so an execution is a list of scheduler
choices that the step function accepts.  Run-time panics of Go (send on a closed
channel, closing a closed channel, negative `WaitGroup` counter) are recorded in
a `panicked` flag, after which nothing runs.
-/

namespace Goroutines

/-! ## Executions -/

/-- Runs a schedule: each entry names the task that takes the next step.  The
result is `none` as soon as a scheduled task cannot move. -/
def run {σ τ : Type} (step : σ → τ → Option σ) : σ → List τ → Option σ
  | s, [] => some s
  | s, t :: ts =>
    match step s t with
    | none => none
    | some s' => run step s' ts

/-! ## Worker pool: `Job`, `Result`, `worker`, `main` -/

/-- The struct `Job`. -/
structure Job where
  ID : Int
  Data : String
  deriving DecidableEq, Repr

/-- The struct `Result`; `Error` is `none` for Go's `nil`. -/
structure Result where
  JobID : Int
  Value : String
  Error : Option String
  deriving DecidableEq, Repr

/-- The job built by `main` in its send loop:
`Job{ID: i, Data: fmt.Sprintf("task-%d", i)}`. -/
def mkJob (i : Int) : Job :=
  { ID := i, Data := "task-" ++ toString i }

/-- The result a worker builds from a job:
`Result{JobID: job.ID, Value: fmt.Sprintf("Processed: %s", job.Data), Error: nil}`. -/
def process (job : Job) : Result :=
  { JobID := job.ID, Value := "Processed: " ++ job.Data, Error := none }

/-- Where a `worker` goroutine stands. -/
inductive WorkerPc where
  /-- At `for job := range jobs`, waiting for a job or for exhaustion. -/
  | recv
  /-- Inside the loop body with `job`, about to do `results <- Result{...}`. -/
  | send (job : Job)
  /-- The loop has ended; the deferred `wg.Done()` is about to run. -/
  | deferDone
  /-- The goroutine has returned. -/
  | exited
  deriving DecidableEq, Repr

/-- A worker goroutine; `dones` counts its calls of `wg.Done()`. -/
structure Worker where
  pc : WorkerPc
  dones : Nat
  deriving DecidableEq, Repr

/-- Where `main` stands. -/
inductive MainPc where
  /-- Loop head `for i := 1; i <= numWorkers; i++`, next statement `wg.Add(1)`. -/
  | spawnLoop (i : Nat)
  /-- About to run `go worker(i, jobs, results, &wg)`. -/
  | goWorker (i : Nat)
  /-- Loop head `for i := 1; i <= numJobs; i++`, next statement `jobs <- Job{...}`. -/
  | sendLoop (i : Nat)
  /-- About to run `close(jobs)`. -/
  | closeJobs
  /-- About to start the goroutine `func() { wg.Wait(); close(results) }`. -/
  | goCloser
  /-- At `for result := range results`. -/
  | rangeResults
  /-- After the range loop. -/
  | done
  deriving DecidableEq, Repr

/-- Where the goroutine `func() { wg.Wait(); close(results) }` stands. -/
inductive CloserPc where
  | notStarted
  /-- Blocked in `wg.Wait()`. -/
  | waiting
  /-- About to run `close(results)`. -/
  | closing
  | exited
  deriving DecidableEq, Repr

/-- The state of the worker-pool program.  `workers[k]` is the goroutine started
as `worker(k+1, ...)`; `received` lists the results the range loop of `main` has
taken, in arrival order. -/
structure PoolState where
  mainPc : MainPc
  workers : List Worker
  closer : CloserPc
  wg : Int
  jobsBuf : List Job
  jobsClosed : Bool
  resultsBuf : List Result
  resultsClosed : Bool
  received : List Result
  panicked : Bool
  deriving DecidableEq, Repr

/-- The tasks of the worker-pool program. -/
inductive PoolTask where
  | main
  | worker (k : Nat)
  | closer
  deriving DecidableEq, Repr

/-- The state in which `main` begins, after both `make(chan ..., numJobs)`. -/
def poolInit : PoolState :=
  { mainPc := .spawnLoop 1, workers := [], closer := .notStarted, wg := 0,
    jobsBuf := [], jobsClosed := false, resultsBuf := [], resultsClosed := false,
    received := [], panicked := false }

/-- One step of `main` with `numWorkers = W` and `numJobs = N`; both channels have
capacity `N`. -/
def mainStep (W N : Nat) (s : PoolState) : Option PoolState :=
  match s.mainPc with
  | .spawnLoop i =>
    if i ≤ W then some { s with wg := s.wg + 1, mainPc := .goWorker i }
    else some { s with mainPc := .sendLoop 1 }
  | .goWorker i =>
    some { s with workers := s.workers ++ [{ pc := .recv, dones := 0 }],
                  mainPc := .spawnLoop (i + 1) }
  | .sendLoop i =>
    if i ≤ N then
      if s.jobsClosed then some { s with panicked := true }
      else if s.jobsBuf.length < N then
        some { s with jobsBuf := s.jobsBuf ++ [mkJob i], mainPc := .sendLoop (i + 1) }
      else none
    else some { s with mainPc := .closeJobs }
  | .closeJobs =>
    if s.jobsClosed then some { s with panicked := true }
    else some { s with jobsClosed := true, mainPc := .goCloser }
  | .goCloser => some { s with closer := .waiting, mainPc := .rangeResults }
  | .rangeResults =>
    match s.resultsBuf with
    | r :: rs => some { s with resultsBuf := rs, received := s.received ++ [r] }
    | [] => if s.resultsClosed then some { s with mainPc := .done } else none
  | .done => none

/-- One step of the worker goroutine `workers[k]`. -/
def workerStep (N : Nat) (s : PoolState) (k : Nat) : Option PoolState :=
  match s.workers[k]? with
  | none => none
  | some w =>
    match w.pc with
    | .recv =>
      match s.jobsBuf with
      | job :: js =>
        some { s with jobsBuf := js, workers := s.workers.set k { w with pc := .send job } }
      | [] =>
        if s.jobsClosed then
          some { s with workers := s.workers.set k { w with pc := .deferDone } }
        else none
    | .send job =>
      if s.resultsClosed then some { s with panicked := true }
      else if s.resultsBuf.length < N then
        some { s with resultsBuf := s.resultsBuf ++ [process job],
                      workers := s.workers.set k { w with pc := .recv } }
      else none
    | .deferDone =>
      if s.wg - 1 < 0 then some { s with panicked := true }
      else some { s with wg := s.wg - 1,
                         workers := s.workers.set k { pc := .exited, dones := w.dones + 1 } }
    | .exited => none

/-- One step of the goroutine `func() { wg.Wait(); close(results) }`. -/
def closerStep (s : PoolState) : Option PoolState :=
  match s.closer with
  | .notStarted => none
  | .waiting => if s.wg = 0 then some { s with closer := .closing } else none
  | .closing =>
    if s.resultsClosed then some { s with panicked := true }
    else some { s with resultsClosed := true, closer := .exited }
  | .exited => none

/-- One scheduler step of the worker-pool program; a panicked program is dead. -/
def poolStep (W N : Nat) (s : PoolState) (t : PoolTask) : Option PoolState :=
  if s.panicked then none
  else
    match t with
    | .main => mainStep W N s
    | .worker k => workerStep N s k
    | .closer => closerStep s

/-! ## Pipeline stages: `generate`, `square` -/

/-- Go's `int` on a 64-bit platform: the two's-complement value of a mathematical
integer, as left by an arithmetic operation that overflows. -/
def wrapInt64 (x : Int) : Int :=
  (x + 2 ^ 63) % 2 ^ 64 - 2 ^ 63

/-- The expression `n * n` that `square` sends, computed on Go's 64-bit `int`. -/
def squareInt (n : Int) : Int :=
  wrapInt64 (n * n)

/-- Where the goroutine of `generate` stands. -/
inductive GenPc where
  | notStarted
  /-- In `for _, n := range nums { out <- n }` with `rest` still to send; with
  `rest = []` the next statement is `close(out)`. -/
  | loop (rest : List Int)
  | exited
  deriving DecidableEq, Repr

/-- Where the goroutine of `square` stands. -/
inductive SquarePc where
  | notStarted
  /-- At `for n := range in`. -/
  | recv
  /-- In the loop body with `n`, about to do `out <- n * n`. -/
  | send (n : Int)
  /-- The loop has ended; about to run `close(out)`. -/
  | closing
  | exited
  deriving DecidableEq, Repr

/-- Where the caller of `square(generate(nums...))` stands; after both calls it
ranges over the returned channel. -/
inductive PipeCallerPc where
  | callGenerate
  | callSquare
  | drain
  | done
  deriving DecidableEq, Repr

/-- The state of `for v := range square(generate(nums...))`.  Both channels are
unbuffered, so a send is a hand-over to a receiver that is waiting. -/
structure PipeState where
  caller : PipeCallerPc
  gen : GenPc
  genOutClosed : Bool
  sq : SquarePc
  sqOutClosed : Bool
  received : List Int
  panicked : Bool
  deriving DecidableEq, Repr

/-- The tasks of the pipeline. -/
inductive PipeTask where
  | caller
  | gen
  | sq
  deriving DecidableEq, Repr

/-- The state before `generate` is called. -/
def pipeInit : PipeState :=
  { caller := .callGenerate, gen := .notStarted, genOutClosed := false, sq := .notStarted,
    sqOutClosed := false, received := [], panicked := false }

/-- One step of the caller: it calls `generate`, then `square`, then ranges over the
result until it finds the channel closed. -/
def pipeCallerStep (nums : List Int) (s : PipeState) : Option PipeState :=
  match s.caller with
  | .callGenerate => some { s with gen := .loop nums, caller := .callSquare }
  | .callSquare => some { s with sq := .recv, caller := .drain }
  | .drain => if s.sqOutClosed then some { s with caller := .done } else none
  | .done => none

/-- One step of the goroutine of `generate`: a send hands the next number to
`square` when that is waiting at its `range`; after the last number, `close(out)`. -/
def generateStep (s : PipeState) : Option PipeState :=
  match s.gen with
  | .notStarted => none
  | .loop (n :: rest) =>
    if s.genOutClosed then some { s with panicked := true }
    else if s.sq = .recv then some { s with gen := .loop rest, sq := .send n }
    else none
  | .loop [] =>
    if s.genOutClosed then some { s with panicked := true }
    else some { s with genOutClosed := true, gen := .exited }
  | .exited => none

/-- One step of the goroutine of `square`: at its `range` it leaves the loop once
`in` is closed; holding `n` it hands `n * n` to the caller that is ranging over
`out`; after the loop, `close(out)`. -/
def squareStep (s : PipeState) : Option PipeState :=
  match s.sq with
  | .notStarted => none
  | .recv => if s.genOutClosed then some { s with sq := .closing } else none
  | .send n =>
    if s.sqOutClosed then some { s with panicked := true }
    else if s.caller = .drain then
      some { s with received := s.received ++ [squareInt n], sq := .recv }
    else none
  | .closing =>
    if s.sqOutClosed then some { s with panicked := true }
    else some { s with sqOutClosed := true, sq := .exited }
  | .exited => none

/-- One scheduler step of the pipeline. -/
def pipeStep (nums : List Int) (s : PipeState) (t : PipeTask) : Option PipeState :=
  if s.panicked then none
  else
    match t with
    | .caller => pipeCallerStep nums s
    | .gen => generateStep s
    | .sq => squareStep s

/-! ## Fan-in: `merge` -/

/-- Where a forwarding goroutine `output(c)` of `merge` stands. -/
inductive FwdPc where
  | notStarted
  /-- At `for n := range c`. -/
  | recv
  /-- In the loop body with `n`, about to do `out <- n`. -/
  | send (n : Int)
  /-- The loop has ended; the deferred `wg.Done()` is about to run. -/
  | deferDone
  | exited
  deriving DecidableEq, Repr

/-- An input channel of `merge` with its forwarding goroutine.  The channel is fed
by a producer that sends the numbers of `src` in order and then closes it, as the
goroutine of `generate` does; `dones` counts the forwarder's calls of `wg.Done()`. -/
structure Lane where
  src : List Int
  srcClosed : Bool
  fwd : FwdPc
  dones : Nat
  deriving DecidableEq, Repr

/-- Where the goroutine that calls `merge` stands: inside `merge` (`addWg`, `spawn`,
`goCloser`), then, when the merged channel is piped through `square`, at the call
of `square`, then ranging over the channel it ends up with. -/
inductive MergeCallerPc where
  /-- About to run `wg.Add(len(channels))`. -/
  | addWg
  /-- Loop head `for _, c := range channels` at index `k`, next statement
  `go output(c)`. -/
  | spawn (k : Nat)
  /-- About to start `func() { wg.Wait(); close(out) }` and return `out`. -/
  | goCloser
  /-- About to call `square` on the merged channel. -/
  | callSquare
  | drain
  | done
  deriving DecidableEq, Repr

/-- Where a `square` goroutine that reads the merged channel stands; the number it
holds keeps the index of the input channel it came from. -/
inductive TagSquarePc where
  | notStarted
  | recv
  | send (k : Nat) (n : Int)
  | closing
  | exited
  deriving DecidableEq, Repr

/-- The state of `for v := range merge(channels...)`, or, when `piped`, of
`for v := range square(merge(channels...))`.  `received` lists what the range loop
has taken, each value with the index of the input channel it came from. -/
structure MergeState where
  caller : MergeCallerPc
  lanes : List Lane
  closer : CloserPc
  wg : Int
  outClosed : Bool
  sq : TagSquarePc
  sqOutClosed : Bool
  received : List (Nat × Int)
  panicked : Bool
  deriving DecidableEq, Repr

/-- The tasks of the fan-in. -/
inductive MergeTask where
  | caller
  | producer (k : Nat)
  | forwarder (k : Nat)
  | closer
  | sq
  deriving DecidableEq, Repr

/-- The state in which `merge` is entered: input channel `k` will deliver
`inputs[k]`. -/
def mergeInit (inputs : List (List Int)) : MergeState :=
  { caller := .addWg,
    lanes := inputs.map (fun l => { src := l, srcClosed := false, fwd := .notStarted, dones := 0 }),
    closer := .notStarted, wg := 0, outClosed := false, sq := .notStarted, sqOutClosed := false,
    received := [], panicked := false }

/-- One step of the caller.  Inside `merge`: `wg.Add(len(channels))`, one
`go output(c)` per channel, the closing goroutine; then the range loop. -/
def mergeCallerStep (piped : Bool) (s : MergeState) : Option MergeState :=
  match s.caller with
  | .addWg =>
    if s.wg + s.lanes.length < 0 then some { s with panicked := true }
    else some { s with wg := s.wg + s.lanes.length, caller := .spawn 0 }
  | .spawn k =>
    match s.lanes[k]? with
    | some l => some { s with lanes := s.lanes.set k { l with fwd := .recv }, caller := .spawn (k + 1) }
    | none => some { s with caller := .goCloser }
  | .goCloser =>
    some { s with closer := .waiting, caller := if piped then .callSquare else .drain }
  | .callSquare => some { s with sq := .recv, caller := .drain }
  | .drain =>
    if (if piped then s.sqOutClosed else s.outClosed) then some { s with caller := .done }
    else none
  | .done => none

/-- One step of the producer of input channel `k`: it hands its next number to the
forwarder waiting at its `range`, and closes the channel after the last one. -/
def producerStep (s : MergeState) (k : Nat) : Option MergeState :=
  match s.lanes[k]? with
  | none => none
  | some l =>
    match l.src with
    | n :: rest =>
      if l.fwd = .recv then
        some { s with lanes := s.lanes.set k { l with src := rest, fwd := .send n } }
      else none
    | [] =>
      if l.srcClosed then none
      else some { s with lanes := s.lanes.set k { l with srcClosed := true } }

/-- One step of the forwarder `output(channels[k])`.  Its send on the unbuffered
`out` is a hand-over to whoever ranges over `out`: the caller, or `square`. -/
def forwarderStep (piped : Bool) (s : MergeState) (k : Nat) : Option MergeState :=
  match s.lanes[k]? with
  | none => none
  | some l =>
    match l.fwd with
    | .notStarted => none
    | .recv =>
      if l.srcClosed then some { s with lanes := s.lanes.set k { l with fwd := .deferDone } }
      else none
    | .send n =>
      if s.outClosed then some { s with panicked := true }
      else if piped then
        if s.sq = .recv then
          some { s with sq := .send k n, lanes := s.lanes.set k { l with fwd := .recv } }
        else none
      else if s.caller = .drain then
        some { s with received := s.received ++ [(k, n)],
                      lanes := s.lanes.set k { l with fwd := .recv } }
      else none
    | .deferDone =>
      if s.wg - 1 < 0 then some { s with panicked := true }
      else some { s with wg := s.wg - 1,
                         lanes := s.lanes.set k { l with fwd := .exited, dones := l.dones + 1 } }
    | .exited => none

/-- One step of the goroutine `func() { wg.Wait(); close(out) }` of `merge`. -/
def mergeCloserStep (s : MergeState) : Option MergeState :=
  match s.closer with
  | .notStarted => none
  | .waiting => if s.wg = 0 then some { s with closer := .closing } else none
  | .closing =>
    if s.outClosed then some { s with panicked := true }
    else some { s with outClosed := true, closer := .exited }
  | .exited => none

/-- One step of the `square` goroutine that reads the merged channel. -/
def mergeSquareStep (s : MergeState) : Option MergeState :=
  match s.sq with
  | .notStarted => none
  | .recv => if s.outClosed then some { s with sq := .closing } else none
  | .send k n =>
    if s.sqOutClosed then some { s with panicked := true }
    else if s.caller = .drain then
      some { s with received := s.received ++ [(k, squareInt n)], sq := .recv }
    else none
  | .closing =>
    if s.sqOutClosed then some { s with panicked := true }
    else some { s with sqOutClosed := true, sq := .exited }
  | .exited => none

/-- One scheduler step of the fan-in. -/
def mergeStep (piped : Bool) (s : MergeState) (t : MergeTask) : Option MergeState :=
  if s.panicked then none
  else
    match t with
    | .caller => mergeCallerStep piped s
    | .producer k => producerStep s k
    | .forwarder k => forwarderStep piped s k
    | .closer => mergeCloserStep s
    | .sq => mergeSquareStep s

/-! ### Ghost measures of the worker pool -/

/-- The result a worker is about to send, as a multiset (empty unless it holds a job). -/
def heldOf (w : Worker) : Multiset Result :=
  match w.pc with
  | .send job => {process job}
  | _ => 0

/-- The number of calls of `wg.Add(1)` that `main` has made when it stands at a
program counter. -/
def armed (W : Nat) : MainPc → Nat
  | .spawnLoop i => i - 1
  | .goWorker i => i
  | _ => W

/-- The number of `go worker(...)` statements `main` has run. -/
def spawned (W : Nat) : MainPc → Nat
  | .spawnLoop i => i - 1
  | .goWorker i => i - 1
  | _ => W

/-- The loop variable of the send loop: jobs `1 .. nextJob - 1` have been sent. -/
def nextJob (N : Nat) : MainPc → Nat
  | .spawnLoop _ => 1
  | .goWorker _ => 1
  | .sendLoop i => i
  | _ => N + 1

/-- Whether `close(jobs)` has run. -/
def afterClose : MainPc → Bool
  | .goCloser => true
  | .rangeResults => true
  | .done => true
  | _ => false

/-- Whether the closing goroutine has been started. -/
def closerStarted : MainPc → Bool
  | .rangeResults => true
  | .done => true
  | _ => false

/-- The loop variables stay within their loops. -/
def pcInRange (W N : Nat) : MainPc → Prop
  | .spawnLoop i => 1 ≤ i ∧ i ≤ W + 1
  | .goWorker i => 1 ≤ i ∧ i ≤ W
  | .sendLoop i => 1 ≤ i ∧ i ≤ N + 1
  | _ => True

/-- The results of jobs `1 .. n - 1`, in submission order. -/
def resultsUpTo (n : Nat) : List Result :=
  (List.Ico 1 n).map (fun i : Nat => process (mkJob (i : Int)))

/-- The invariant of the worker pool. -/
structure PoolInv (W N : Nat) (s : PoolState) : Prop where
  noPanic : s.panicked = false
  inRange : pcInRange W N s.mainPc
  nWorkers : s.workers.length = spawned W s.mainPc
  counter : s.wg + (((s.workers.map Worker.dones).sum : Nat) : Int) = (armed W s.mainPc : Int)
  doneOnce : ∀ w ∈ s.workers, w.dones = if w.pc = .exited then 1 else 0
  jobsClosedIff : s.jobsClosed = afterClose s.mainPc
  closerIff : s.closer = .notStarted ↔ closerStarted s.mainPc = false
  resultsClosedIff : s.resultsClosed = true ↔ s.closer = .exited
  allExited : s.closer = .closing ∨ s.closer = .exited → ∀ w ∈ s.workers, w.pc = .exited
  conserve : (↑(s.jobsBuf.map process) : Multiset Result) + (s.workers.map heldOf).sum
      + ↑s.resultsBuf + ↑s.received = ↑(resultsUpTo (nextJob N s.mainPc))
  drained : (∃ w ∈ s.workers, w.pc = .deferDone ∨ w.pc = .exited) →
      s.jobsBuf = [] ∧ s.jobsClosed = true
  doneClosed : s.mainPc = .done → s.resultsClosed = true ∧ s.resultsBuf = []

/-! ### Ghost measures of the pipeline -/

/-- The number `square` holds, as a list. -/
def sqHeld : SquarePc → List Int
  | .send n => [n]
  | _ => []

/-- The numbers the goroutine of `generate` has yet to send. -/
def genRest (nums : List Int) : GenPc → List Int
  | .notStarted => nums
  | .loop rest => rest
  | .exited => []

/-- Which goroutines exist at each point of the caller. -/
def pipeStarted : PipeCallerPc → GenPc → SquarePc → Prop
  | .callGenerate, g, q => g = .notStarted ∧ q = .notStarted
  | .callSquare, g, q => g ≠ .notStarted ∧ q = .notStarted
  | .drain, g, q => g ≠ .notStarted ∧ q ≠ .notStarted
  | .done, g, q => g ≠ .notStarted ∧ q = .exited

/-- The invariant of the pipeline for `square(generate(nums...))`. -/
structure PipeInv (nums : List Int) (s : PipeState) : Prop where
  noPanic : s.panicked = false
  genClosedIff : s.genOutClosed = true ↔ s.gen = .exited
  sqClosedIff : s.sqOutClosed = true ↔ s.sq = .exited
  started : pipeStarted s.caller s.gen s.sq
  sqTail : s.sq = .closing ∨ s.sq = .exited → s.gen = .exited
  data : s.received ++ (sqHeld s.sq).map squareInt ++ (genRest nums s.gen).map squareInt
      = nums.map squareInt

/-- Three plus the number of steps the pipeline has taken, read off the state. -/
def pipeClock (s : PipeState) : Nat :=
  (match s.caller with
    | .callGenerate => 0
    | .callSquare => 1
    | .drain => 2
    | .done => 3)
  + 2 * s.received.length + (sqHeld s.sq).length
  + (match s.gen with
    | .exited => 1
    | _ => 0)
  + (match s.sq with
    | .closing => 1
    | .exited => 2
    | _ => 0)

/-! ### A step counter for the worker pool -/

/-- The number of steps `main` has taken to reach a program counter, plus two,
its receives in the range loop not counted. -/
def mainClock (W N : Nat) : MainPc → Nat
  | .spawnLoop i => 2 * i
  | .goWorker i => 2 * i + 1
  | .sendLoop i => 2 * W + 2 + i
  | .closeJobs => 2 * W + N + 4
  | .goCloser => 2 * W + N + 5
  | .rangeResults => 2 * W + N + 6
  | .done => 2 * W + N + 7

/-- The steps of a worker that are not matched by a result it has sent. -/
def workerClock (w : Worker) : Nat :=
  match w.pc with
  | .recv => 0
  | .send _ => 1
  | .deferDone => 1
  | .exited => 2

/-- The steps the closing goroutine has taken. -/
def closerClock : CloserPc → Nat
  | .notStarted => 0
  | .waiting => 0
  | .closing => 1
  | .exited => 2

/-- Two plus the number of steps taken so far, read off the state: every result in
the results buffer stands for two worker steps, every received result for those
two and the receive of `main`. -/
def poolClock (W N : Nat) (s : PoolState) : Nat :=
  mainClock W N s.mainPc + (s.workers.map workerClock).sum + 2 * s.resultsBuf.length
    + 3 * s.received.length + closerClock s.closer

/-! ### Ghost measures of the fan-in -/

/-- What the range loop finally sees of a forwarded number: the number itself, or
its square when the merged channel is piped through `square`. -/
def post (piped : Bool) (n : Int) : Int :=
  if piped then squareInt n else n

/-- The number a forwarder holds, as a list. -/
def fwdHeld : FwdPc → List Int
  | .send n => [n]
  | _ => []

/-- The number `square` holds, if it came from input channel `j`. -/
def sqHeldAt (j : Nat) : TagSquarePc → List Int
  | .send k n => if k = j then [n] else []
  | _ => []

/-- The number `square` holds, wherever it came from. -/
def sqHeldAll : TagSquarePc → List Int
  | .send _ n => [n]
  | _ => []

/-- The values received so far that came from input channel `j`, in arrival order. -/
def recvAt (j : Nat) (received : List (Nat × Int)) : List Int :=
  (received.filter (fun p => p.1 = j)).map (fun p => p.2)

/-- The number of `go output(c)` statements that have run. -/
def spawnedM (K : Nat) : MergeCallerPc → Nat
  | .addWg => 0
  | .spawn k => k
  | _ => K

/-- The number of forwarders the `WaitGroup` has been armed for. -/
def armedM (K : Nat) : MergeCallerPc → Nat
  | .addWg => 0
  | _ => K

/-- Whether the closing goroutine of `merge` has been started. -/
def closerStartedM : MergeCallerPc → Bool
  | .callSquare => true
  | .drain => true
  | .done => true
  | _ => false

/-- Whether the caller is in (or past) its range loop. -/
def ranging : MergeCallerPc → Bool
  | .drain => true
  | .done => true
  | _ => false

/-- The program counters the caller can be at. -/
def callerInRange (piped : Bool) (K : Nat) : MergeCallerPc → Prop
  | .spawn k => k ≤ K
  | .callSquare => piped = true
  | _ => True

/-- What is still on its way in a lane: the number its forwarder holds and what
its producer has yet to send. -/
def laneRest (piped : Bool) (l : Lane) : Multiset Int :=
  ↑((fwdHeld l.fwd ++ l.src).map (post piped))

/-- The invariant of one lane of the fan-in. -/
structure LaneInv (piped : Bool) (inputs : List (List Int)) (nSpawned : Nat)
    (sqh : List Int) (received : List (Nat × Int)) (j : Nat) (l : Lane) : Prop where
  started : l.fwd = .notStarted ↔ nSpawned ≤ j
  doneOnce : l.dones = if l.fwd = .exited then 1 else 0
  closedNil : l.srcClosed = true → l.src = []
  tailClosed : l.fwd = .deferDone ∨ l.fwd = .exited → l.srcClosed = true
  data : recvAt j received ++ sqh.map (post piped)
      ++ (fwdHeld l.fwd ++ l.src).map (post piped) = ((inputs[j]?).getD []).map (post piped)

/-- The invariant of the fan-in. -/
structure MergeInv (piped : Bool) (inputs : List (List Int)) (s : MergeState) : Prop where
  noPanic : s.panicked = false
  nLanes : s.lanes.length = inputs.length
  inRange : callerInRange piped inputs.length s.caller
  lanesOk : ∀ (j : Nat) (l : Lane), s.lanes[j]? = some l →
    LaneInv piped inputs (spawnedM inputs.length s.caller) (sqHeldAt j s.sq) s.received j l
  counter : s.wg + (((s.lanes.map Lane.dones).sum : Nat) : Int) = (armedM inputs.length s.caller : Int)
  closerIff : s.closer = .notStarted ↔ closerStartedM s.caller = false
  outClosedIff : s.outClosed = true ↔ s.closer = .exited
  allExited : s.closer = .closing ∨ s.closer = .exited → ∀ l ∈ s.lanes, l.fwd = .exited
  conserve : (↑(s.received.map (fun p => p.2)) : Multiset Int)
      + ↑((sqHeldAll s.sq).map (post piped)) + (s.lanes.map (laneRest piped)).sum
      = ↑(inputs.flatten.map (post piped))
  sqIff : s.sq = .notStarted ↔ ¬ (piped = true ∧ ranging s.caller = true)
  sqClosedIff : s.sqOutClosed = true ↔ s.sq = .exited
  sqTail : s.sq = .closing ∨ s.sq = .exited → s.outClosed = true
  doneClosed : s.caller = .done → (if piped then s.sqOutClosed else s.outClosed) = true

/-- The steps of the caller so far. -/
def callerClock (piped : Bool) (K : Nat) : MergeCallerPc → Nat
  | .addWg => 0
  | .spawn k => 1 + k
  | .goCloser => K + 2
  | .callSquare => K + 3
  | .drain => K + 3 + (if piped then 1 else 0)
  | .done => K + 4 + (if piped then 1 else 0)

/-- The steps of a lane that are not matched by a number that has left it. -/
def laneClock (l : Lane) : Nat :=
  (if l.srcClosed then 1 else 0) + (fwdHeld l.fwd).length
  + (match l.fwd with
    | .deferDone => 1
    | .exited => 2
    | _ => 0)

/-- The steps `square` has taken after its loop. -/
def sqTailClock : TagSquarePc → Nat
  | .closing => 1
  | .exited => 2
  | _ => 0

/-- The number of steps the fan-in has taken, read off the state. -/
def mergeClock (piped : Bool) (K : Nat) (s : MergeState) : Nat :=
  callerClock piped K s.caller + (s.lanes.map laneClock).sum
    + (if piped then 3 else 2) * s.received.length + 2 * (sqHeldAll s.sq).length
    + closerClock s.closer + sqTailClock s.sq

/-- Every value received, and the one `square` holds, carries the index of an
existing input channel. -/
def OriginInv (s : MergeState) : Prop :=
  (∀ p ∈ s.received, p.1 < s.lanes.length) ∧
    (∀ (k : Nat) (n : Int), s.sq = .send k n → k < s.lanes.length)

/-- The length no schedule of the fan-in over `K` channels delivering `L` numbers
in total exceeds. -/
def mergeBound (piped : Bool) (K L : Nat) : Nat :=
  4 * K + (if piped then 3 else 2) * L + 6 + (if piped then 3 else 0)

/-! ## Sample executions -/

/-- A schedule of `main` as written (`numWorkers = 3`, `numJobs = 10`): `main` runs
up to its range loop; the workers take three jobs at a time and hand the results
back in the opposite order; then everything winds down. -/
def sampleSchedule : List PoolTask :=
  List.replicate 20 .main
  ++ (List.replicate 3 [PoolTask.worker 0, .worker 1, .worker 2, .worker 2, .worker 1,
        .worker 0, .main, .main, .main]).flatten
  ++ [.worker 1, .worker 1, .main]
  ++ [.worker 0, .worker 1, .worker 2, .worker 2, .worker 0, .worker 1]
  ++ [.closer, .closer, .main]

/-- The state `sampleSchedule` ends in. -/
def sampleFinal : PoolState :=
  { mainPc := .done,
    workers := [{ pc := .exited, dones := 1 }, { pc := .exited, dones := 1 },
      { pc := .exited, dones := 1 }],
    closer := .exited, wg := 0, jobsBuf := [], jobsClosed := true, resultsBuf := [],
    resultsClosed := true,
    received := [{ JobID := 3, Value := "Processed: task-3", Error := none },
      { JobID := 2, Value := "Processed: task-2", Error := none },
      { JobID := 1, Value := "Processed: task-1", Error := none },
      { JobID := 6, Value := "Processed: task-6", Error := none },
      { JobID := 5, Value := "Processed: task-5", Error := none },
      { JobID := 4, Value := "Processed: task-4", Error := none },
      { JobID := 9, Value := "Processed: task-9", Error := none },
      { JobID := 8, Value := "Processed: task-8", Error := none },
      { JobID := 7, Value := "Processed: task-7", Error := none },
      { JobID := 10, Value := "Processed: task-10", Error := none }],
    panicked := false }

/-- A state in the middle of `sampleSchedule`: worker 2 has just handed back the
result of job 3, workers 0 and 1 still hold jobs 1 and 2. -/
def sampleMidSchedule : List PoolTask :=
  List.replicate 20 .main ++ [.worker 0, .worker 1, .worker 2, .worker 2]

/-- The state `sampleMidSchedule` ends in. -/
def sampleMid : PoolState :=
  { mainPc := .rangeResults,
    workers := [{ pc := .send (mkJob 1), dones := 0 }, { pc := .send (mkJob 2), dones := 0 },
      { pc := .recv, dones := 0 }],
    closer := .waiting, wg := 3,
    jobsBuf := [mkJob 4, mkJob 5, mkJob 6, mkJob 7, mkJob 8, mkJob 9, mkJob 10],
    jobsClosed := true,
    resultsBuf := [{ JobID := 3, Value := "Processed: task-3", Error := none }],
    resultsClosed := false, received := [], panicked := false }

/-- A complete schedule of `for v := range square(generate(1, 2, 3))`. -/
def pipeSchedule : List PipeTask :=
  [.caller, .caller] ++ (List.replicate 3 [PipeTask.gen, .sq]).flatten
  ++ [.gen, .sq, .sq, .caller]

/-- The state `pipeSchedule` ends in. -/
def pipeFinal : PipeState :=
  { caller := .done, gen := .exited, genOutClosed := true, sq := .exited, sqOutClosed := true,
    received := [1, 4, 9], panicked := false }

/-- A complete schedule of `for v := range square(generate(3037000500))`. -/
def overflowSchedule : List PipeTask :=
  [.caller, .caller, .gen, .sq, .gen, .sq, .sq, .caller]

/-- The state `overflowSchedule` ends in. -/
def overflowFinal : PipeState :=
  { caller := .done, gen := .exited, genOutClosed := true, sq := .exited, sqOutClosed := true,
    received := [-9223372036709301616], panicked := false }

/-- The pipeline state in which `square` holds `3`, about to send. -/
def squareHolding : PipeState :=
  { caller := .drain, gen := .loop [], genOutClosed := false, sq := .send 3, sqOutClosed := false,
    received := [1, 4], panicked := false }

/-- A complete schedule of `for v := range merge(generate(1, 2, 3))`. -/
def mergeSchedule : List MergeTask :=
  List.replicate 4 .caller ++ (List.replicate 3 [MergeTask.producer 0, .forwarder 0]).flatten
  ++ [.producer 0, .forwarder 0, .forwarder 0, .closer, .closer, .caller]

/-- The state `mergeSchedule` ends in. -/
def mergeFinal : MergeState :=
  { caller := .done, lanes := [{ src := [], srcClosed := true, fwd := .exited, dones := 1 }],
    closer := .exited, wg := 0, outClosed := true, sq := .notStarted, sqOutClosed := false,
    received := [(0, 1), (0, 2), (0, 3)], panicked := false }

/-- A complete schedule of `for v := range square(merge(generate(1, 2, 3)))`. -/
def pipedSchedule : List MergeTask :=
  List.replicate 5 .caller
  ++ (List.replicate 3 [MergeTask.producer 0, .forwarder 0, .sq]).flatten
  ++ [.producer 0, .forwarder 0, .forwarder 0, .closer, .closer, .sq, .sq, .caller]

/-- The state `pipedSchedule` ends in. -/
def pipedFinal : MergeState :=
  { caller := .done, lanes := [{ src := [], srcClosed := true, fwd := .exited, dones := 1 }],
    closer := .exited, wg := 0, outClosed := true, sq := .exited, sqOutClosed := true,
    received := [(0, 1), (0, 4), (0, 9)], panicked := false }

/-- A complete schedule of `for v := range merge()`, with no input channel. -/
def emptyMergeSchedule : List MergeTask :=
  [.caller, .caller, .caller, .closer, .closer, .caller]

/-- The state `emptyMergeSchedule` ends in. -/
def emptyMergeFinal : MergeState :=
  { caller := .done, lanes := [], closer := .exited, wg := 0, outClosed := true,
    sq := .notStarted, sqOutClosed := false, received := [], panicked := false }

/-- A complete schedule of `for v := range merge(generate(1, 2), generate(3))` in
which the second channel gets its number through first. -/
def twoLaneSchedule : List MergeTask :=
  List.replicate 5 .caller
  ++ [.producer 1, .producer 0, .forwarder 1, .forwarder 0, .producer 0, .forwarder 0,
      .producer 1, .producer 0, .forwarder 1, .forwarder 1, .forwarder 0, .forwarder 0,
      .closer, .closer, .caller]

/-- The state `twoLaneSchedule` ends in. -/
def twoLaneFinal : MergeState :=
  { caller := .done,
    lanes := [{ src := [], srcClosed := true, fwd := .exited, dones := 1 },
      { src := [], srcClosed := true, fwd := .exited, dones := 1 }],
    closer := .exited, wg := 0, outClosed := true, sq := .notStarted, sqOutClosed := false,
    received := [(1, 3), (0, 1), (0, 2)], panicked := false }

/-! # Theorems -/

/-! ### List bookkeeping -/

theorem sum_map_set {α M : Type} [AddCommMonoid M] (f : α → M) :
    ∀ (l : List α) (k : Nat) (a b : α), l[k]? = some a →
      ((l.set k b).map f).sum + f a = (l.map f).sum + f b
  | [], k, a, b, h => by simp at h
  | x :: l, 0, a, b, h => by
    simp at h
    subst h
    simp [add_comm, add_left_comm]
  | x :: l, k + 1, a, b, h => by
    simp at h
    have ih := sum_map_set f l k a b h
    simp only [List.set_cons_succ, List.map_cons, List.sum_cons, add_assoc, ih]

theorem sum_le_length {α : Type} (f : α → Nat) :
    ∀ (l : List α), (∀ a ∈ l, f a ≤ 1) → (l.map f).sum ≤ l.length
  | [], _ => by simp
  | x :: l, h => by
    have h1 := h x (by simp)
    have h2 := sum_le_length f l (fun a ha => h a (by simp [ha]))
    simp
    omega

theorem all_one_of_sum_eq {α : Type} (f : α → Nat) :
    ∀ (l : List α), (∀ a ∈ l, f a ≤ 1) → (l.map f).sum = l.length → ∀ a ∈ l, f a = 1
  | [], _, _ => by simp
  | x :: l, h, hs => by
    have h1 := h x (by simp)
    have h2 := sum_le_length f l (fun a ha => h a (by simp [ha]))
    simp at hs
    have ih := all_one_of_sum_eq f l (fun a ha => h a (by simp [ha])) (by omega)
    intro a ha
    simp at ha
    rcases ha with rfl | ha
    · omega
    · exact ih a ha

theorem mem_set_cases {α : Type} {l : List α} {k : Nat} {b a : α}
    (h : a ∈ l.set k b) : a = b ∨ a ∈ l := by
  rcases List.mem_or_eq_of_mem_set h with h | h
  · exact Or.inr h
  · exact Or.inl h

theorem run_append {σ τ : Type} (step : σ → τ → Option σ) :
    ∀ (ts us : List τ) (s : σ),
      run step s (ts ++ us) = (run step s ts).bind (fun s' => run step s' us)
  | [], us, s => by simp [run]
  | t :: ts, us, s => by
    simp only [List.cons_append, run]
    cases step s t with
    | none => simp
    | some s' => simpa using run_append step ts us s'

theorem inv_run {σ τ : Type} (step : σ → τ → Option σ) (P : σ → Prop)
    (hstep : ∀ s t s', P s → step s t = some s' → P s') :
    ∀ (ts : List τ) (s s' : σ), P s → run step s ts = some s' → P s'
  | [], s, s', hP, h => by
    simp [run] at h
    subst h
    exact hP
  | t :: ts, s, s', hP, h => by
    simp only [run] at h
    cases hst : step s t with
    | none => simp [hst] at h
    | some s1 =>
      simp only [hst] at h
      exact inv_run step P hstep ts s1 s' (hstep s t s1 hP hst) h

/-! ### The invariant is preserved -/

theorem poolInit_inv (W N : Nat) : PoolInv W N poolInit := by
  constructor <;> simp [poolInit, pcInRange, spawned, armed, afterClose, closerStarted,
    nextJob, resultsUpTo]

theorem resultsUpTo_succ (i : Nat) (h : 1 ≤ i) :
    resultsUpTo (i + 1) = resultsUpTo i ++ [process (mkJob (i : Int))] := by
  simp [resultsUpTo, List.Ico.succ_top h]

theorem mainStep_inv {W N : Nat} {s s' : PoolState} (h : PoolInv W N s)
    (hs : mainStep W N s = some s') : PoolInv W N s' := by
  obtain ⟨h1, h2, h3, h4, h5, h6, h7, h8, h9, h10, h11, h12⟩ := h
  unfold mainStep at hs
  cases hpc : s.mainPc with
  | spawnLoop i =>
    rw [hpc] at hs h2 h3 h4 h6 h7 h10 h12
    simp only [pcInRange, spawned, armed, afterClose, closerStarted, nextJob] at *
    split_ifs at hs with hi
    · cases hs
      constructor <;> simp only [pcInRange, spawned, armed, afterClose, closerStarted, nextJob] <;> first | assumption | omega | (intro hc; cases hc; done) | skip
    · cases hs
      constructor <;> simp only [pcInRange, spawned, armed, afterClose, closerStarted, nextJob] <;> first | assumption | omega | (intro hc; cases hc; done) | skip
  | goWorker i =>
    rw [hpc] at hs h2 h3 h4 h6 h7 h10 h12
    simp only [pcInRange, spawned, armed, afterClose, closerStarted, nextJob] at *
    have hn : s.closer = .notStarted := by simpa using h7
    cases hs
    constructor <;> simp only [pcInRange, spawned, armed, afterClose, closerStarted, nextJob] <;> first | assumption | omega | (intro hc; cases hc; done) | skip
    case nWorkers => simp only [List.length_append, List.length_singleton]; omega
    case counter =>
      simp only [List.map_append, List.sum_append, List.map_cons, List.map_nil, List.sum_cons,
        List.sum_nil]
      omega
    case doneOnce =>
      intro w hw
      simp only [List.mem_append, List.mem_singleton] at hw
      rcases hw with hw | rfl
      · exact h5 w hw
      · simp
    case allExited =>
      intro hc
      rw [hn] at hc
      simp at hc
    case conserve => simpa [heldOf] using h10
    case drained =>
      rintro ⟨w, hw, hp⟩
      simp only [List.mem_append, List.mem_singleton] at hw
      rcases hw with hw | rfl
      · exact h11 ⟨w, hw, hp⟩
      · simp at hp
  | sendLoop i =>
    rw [hpc] at hs h2 h3 h4 h6 h7 h10 h12
    simp only [pcInRange, spawned, armed, afterClose, closerStarted, nextJob] at *
    simp only [h6, Bool.false_eq_true, if_false] at hs
    rcases Decidable.em (i ≤ N) with hi | hi
    · rw [if_pos hi] at hs
      rcases Decidable.em (s.jobsBuf.length < N) with hk | hk
      swap
      · rw [if_neg hk] at hs
        cases hs
      rw [if_pos hk] at hs
      cases hs
      constructor <;> simp only [pcInRange, spawned, armed, afterClose, closerStarted, nextJob] <;> first | assumption | omega | (intro hc; cases hc; done) | skip
      case conserve =>
        rw [resultsUpTo_succ i h2.1, ← Multiset.coe_add, ← h10]
        simp only [List.map_append, List.map_cons, List.map_nil, ← Multiset.coe_add]
        abel
      case drained =>
        intro hd
        have hd2 := (h11 hd).2
        rw [h6] at hd2
        cases hd2
    · rw [if_neg hi] at hs
      have hiN : i = N + 1 := by omega
      subst hiN
      cases hs
      constructor <;> simp only [pcInRange, spawned, armed, afterClose, closerStarted, nextJob] <;> first | assumption | omega | (intro hc; cases hc; done) | skip
      case drained =>
        intro hd
        have hd2 := (h11 hd).2
        rw [h6] at hd2
        cases hd2
  | closeJobs =>
    rw [hpc] at hs h2 h3 h4 h6 h7 h10 h12
    simp only [pcInRange, spawned, armed, afterClose, closerStarted, nextJob] at *
    simp only [h6, Bool.false_eq_true, if_false] at hs
    cases hs
    constructor <;> simp only [pcInRange, spawned, armed, afterClose, closerStarted, nextJob] <;> first | assumption | omega | (intro hc; cases hc; done) | skip
    case drained =>
      intro hd
      have hd2 := (h11 hd).2
      rw [h6] at hd2
      cases hd2
  | goCloser =>
    rw [hpc] at hs h2 h3 h4 h6 h7 h10 h12
    simp only [pcInRange, spawned, armed, afterClose, closerStarted, nextJob] at *
    have hn : s.closer = .notStarted := by simpa using h7
    cases hs
    constructor <;> simp only [pcInRange, spawned, armed, afterClose, closerStarted, nextJob] <;> first | assumption | omega | (intro hc; cases hc; done) | skip
    case closerIff => simp
    case resultsClosedIff =>
      rw [h8, hn]
      simp
    case allExited =>
      intro hc
      simp at hc
  | rangeResults =>
    rw [hpc] at hs h2 h3 h4 h6 h7 h10 h12
    simp only [pcInRange, spawned, armed, afterClose, closerStarted, nextJob] at *
    cases hb : s.resultsBuf with
    | nil =>
      rw [hb] at hs h10
      simp only at hs
      rcases Decidable.em (s.resultsClosed = true) with hi | hi
      swap
      · rw [if_neg hi] at hs
        cases hs
      rw [if_pos hi] at hs
      cases hs
      constructor <;> simp only [pcInRange, spawned, armed, afterClose, closerStarted, nextJob] <;> first | assumption | omega | (intro hc; cases hc; done) | skip
      case doneClosed =>
        intro _
        exact ⟨hi, trivial⟩
    | cons r rs =>
      rw [hb] at hs h10
      simp only at hs
      cases hs
      constructor <;> simp only [pcInRange, spawned, armed, afterClose, closerStarted, nextJob] <;> first | assumption | omega | (intro hc; cases hc; done) | skip
      case conserve =>
        rw [← h10]
        simp only [← Multiset.coe_add, ← Multiset.cons_coe, ← Multiset.singleton_add]
        abel
  | done =>
    rw [hpc] at hs
    cases hs

theorem spawned_le_armed (W : Nat) (pc : MainPc) : spawned W pc ≤ armed W pc := by
  cases pc <;> simp [spawned, armed]

theorem workerStep_inv {W N : Nat} {s s' : PoolState} {k : Nat} (h : PoolInv W N s)
    (hs : workerStep N s k = some s') : PoolInv W N s' := by
  obtain ⟨h1, h2, h3, h4, h5, h6, h7, h8, h9, h10, h11, h12⟩ := h
  unfold workerStep at hs
  cases hw : s.workers[k]? with
  | none => simp [hw] at hs
  | some w =>
    have hmem : w ∈ s.workers := List.getElem?_mem hw
    have hdw := h5 w hmem
    simp only [hw] at hs
    have hsum := fun b => sum_map_set Worker.dones s.workers k w b hw
    have hheld := fun b => sum_map_set heldOf s.workers k w b hw
    have hopen : w.pc ≠ .exited → s.resultsClosed = false := by
      intro hne
      cases hrc : s.resultsClosed with
      | false => rfl
      | true => exact absurd (h9 (Or.inr (h8.1 hrc)) w hmem) hne
    have hall : w.pc ≠ .exited →
        ∀ l : List Worker, (s.closer = .closing ∨ s.closer = .exited → ∀ w ∈ l, w.pc = .exited) := by
      intro hne l hc
      exact absurd (h9 hc w hmem) hne
    obtain ⟨wpc, wd⟩ := w
    simp only at hs hdw hopen hall hsum hheld
    cases wpc with
    | recv =>
      simp only at hs
      have hd0 : wd = 0 := by simpa using hdw
      subst hd0
      cases hb : s.jobsBuf with
      | cons job js =>
        rw [hb] at hs h10 h11
        simp only at hs
        cases hs
        have hsum' := hsum { pc := .send job, dones := 0 }
        have hheld' := hheld { pc := .send job, dones := 0 }
        simp only [heldOf, add_zero] at hheld' hsum'
        constructor <;> simp only [List.length_set] <;> first | assumption | skip
        case counter =>
          rw [hsum']
          exact h4
        case doneOnce =>
          intro w' hw'
          rcases mem_set_cases hw' with rfl | hw'
          · simp
          · exact h5 w' hw'
        case allExited => exact hall (by simp) _
        case conserve =>
          rw [← h10, hheld']
          simp only [List.map_cons, ← Multiset.cons_coe, ← Multiset.singleton_add]
          abel
        case drained =>
          rintro ⟨w', hw', hp⟩
          rcases mem_set_cases hw' with rfl | hw'
          · simp at hp
          · have := (h11 ⟨w', hw', hp⟩).1
            cases this
      | nil =>
        rw [hb] at hs h10 h11
        simp only at hs
        rcases Decidable.em (s.jobsClosed = true) with hjc | hjc
        swap
        · rw [if_neg hjc] at hs
          cases hs
        rw [if_pos hjc] at hs
        cases hs
        have hsum' := hsum { pc := .deferDone, dones := 0 }
        have hheld' := hheld { pc := .deferDone, dones := 0 }
        simp only [heldOf, add_zero] at hheld' hsum'
        constructor <;> simp only [List.length_set] <;> first | assumption | skip
        case counter =>
          rw [hsum']
          exact h4
        case doneOnce =>
          intro w' hw'
          rcases mem_set_cases hw' with rfl | hw'
          · simp
          · exact h5 w' hw'
        case allExited => exact hall (by simp) _
        case conserve =>
          rw [← h10, hheld']
        case drained =>
          intro _
          exact ⟨trivial, hjc⟩
    | send job =>
      simp only at hs
      have hd0 : wd = 0 := by simpa using hdw
      subst hd0
      have hro := hopen (by simp)
      rw [if_neg (by rw [hro]; simp)] at hs
      rcases Decidable.em (s.resultsBuf.length < N) with hlen | hlen
      swap
      · rw [if_neg hlen] at hs
        cases hs
      rw [if_pos hlen] at hs
      cases hs
      have hsum' := hsum { pc := .recv, dones := 0 }
      have hheld' := hheld { pc := .recv, dones := 0 }
      simp only [heldOf, add_zero] at hheld' hsum'
      constructor <;> simp only [List.length_set] <;> first | assumption | skip
      case counter =>
        rw [hsum']
        exact h4
      case doneOnce =>
        intro w' hw'
        rcases mem_set_cases hw' with rfl | hw'
        · simp
        · exact h5 w' hw'
      case allExited => exact hall (by simp) _
      case conserve =>
        rw [← h10, ← hheld']
        simp only [← Multiset.coe_add, ← Multiset.coe_singleton]
        abel
      case drained =>
        rintro ⟨w', hw', hp⟩
        rcases mem_set_cases hw' with rfl | hw'
        · simp at hp
        · exact h11 ⟨w', hw', hp⟩
      case doneClosed =>
        intro hd
        have := (h12 hd).1
        rw [hro] at this
        cases this
    | deferDone =>
      simp only at hs
      have hd0 : wd = 0 := by simpa using hdw
      subst hd0
      have hsum' := hsum { pc := .exited, dones := 0 + 1 }
      have hheld' := hheld { pc := .exited, dones := 0 + 1 }
      simp only [heldOf, add_zero] at hheld' hsum'
      have hone : ∀ w' ∈ s.workers.set k { pc := .exited, dones := 0 + 1 },
          w'.dones = if w'.pc = .exited then 1 else 0 := by
        intro w' hw'
        rcases mem_set_cases hw' with rfl | hw'
        · simp
        · exact h5 w' hw'
      have hbound := sum_le_length Worker.dones
        (s.workers.set k { pc := .exited, dones := 0 + 1 })
        (fun a ha => by rw [hone a ha]; split_ifs <;> omega)
      simp only [List.length_set] at hbound
      have hle := spawned_le_armed W s.mainPc
      have hwg : ¬ (s.wg - 1 < 0) := by omega
      rw [if_neg hwg] at hs
      cases hs
      constructor <;> simp only [List.length_set] <;> first | assumption | skip
      case counter =>
        rw [hsum']
        omega
      case allExited => exact hall (by simp) _
      case conserve =>
        rw [← h10, hheld']
      case drained =>
        intro _
        exact h11 ⟨_, hmem, Or.inl rfl⟩
    | exited =>
      simp only at hs
      cases hs

theorem started_full {W : Nat} {pc : MainPc} (h : closerStarted pc = true) :
    spawned W pc = W ∧ armed W pc = W := by
  cases pc <;> simp [closerStarted] at h <;> simp [spawned, armed]

theorem closerStep_inv {W N : Nat} {s s' : PoolState} (h : PoolInv W N s)
    (hs : closerStep s = some s') : PoolInv W N s' := by
  obtain ⟨h1, h2, h3, h4, h5, h6, h7, h8, h9, h10, h11, h12⟩ := h
  unfold closerStep at hs
  cases hc : s.closer with
  | notStarted => simp [hc] at hs
  | exited => simp [hc] at hs
  | waiting =>
    rw [hc] at h7 h8 h9
    simp only [hc] at hs
    rcases Decidable.em (s.wg = 0) with hz | hz
    swap
    · rw [if_neg hz] at hs
      cases hs
    rw [if_pos hz] at hs
    cases hs
    have hst : closerStarted s.mainPc = true := by
      cases hcs : closerStarted s.mainPc with
      | true => rfl
      | false => exact absurd (h7.2 hcs) (by simp)
    constructor <;> simp only [] <;> first | assumption | skip
    case closerIff => simp [hst]
    case resultsClosedIff =>
      rw [h8]
      simp
    case allExited =>
      intro _ w hw
      have hfull := started_full (W := W) hst
      have hle : ∀ a ∈ s.workers, Worker.dones a ≤ 1 := by
        intro a ha
        rw [h5 a ha]
        split_ifs <;> omega
      have hall := all_one_of_sum_eq Worker.dones s.workers hle (by omega) w hw
      have hw5 := h5 w hw
      by_contra hne
      rw [if_neg hne] at hw5
      omega
  | closing =>
    rw [hc] at h7 h8 h9
    simp only [hc] at hs
    have hrc : s.resultsClosed = false := by
      cases hrc : s.resultsClosed with
      | false => rfl
      | true => exact absurd (h8.1 hrc) (by simp)
    rw [if_neg (by rw [hrc]; simp)] at hs
    cases hs
    constructor <;> simp only [] <;> first | assumption | skip
    case closerIff =>
      constructor
      · intro hx
        cases hx
      · intro hx
        exact absurd (h7.2 hx) (by simp)
    case allExited =>
      intro _
      exact h9 (Or.inl rfl)
    case doneClosed =>
      intro hd
      have := (h12 hd).1
      rw [hrc] at this
      cases this

theorem poolStep_inv (W N : Nat) (s : PoolState) (t : PoolTask) (s' : PoolState)
    (h : PoolInv W N s) (hs : poolStep W N s t = some s') : PoolInv W N s' := by
  unfold poolStep at hs
  rw [h.noPanic] at hs
  simp only [Bool.false_eq_true, if_false] at hs
  cases t with
  | main => exact mainStep_inv h hs
  | worker k => exact workerStep_inv h hs
  | closer => exact closerStep_inv h hs

theorem pool_reach_inv (W N : Nat) (sched : List PoolTask) (s : PoolState)
    (h : run (poolStep W N) poolInit sched = some s) : PoolInv W N s :=
  inv_run (poolStep W N) (PoolInv W N) (poolStep_inv W N) sched poolInit s (poolInit_inv W N) h

/-! ### Consequences of the invariant -/

theorem nextJob_bounds {W N : Nat} {pc : MainPc} (h : pcInRange W N pc) :
    1 ≤ nextJob N pc ∧ nextJob N pc ≤ N + 1 := by
  cases pc <;> simp [nextJob, pcInRange] at * <;> omega

theorem resultsUpTo_length (n : Nat) : (resultsUpTo n).length = n - 1 := by
  simp [resultsUpTo]

theorem pool_card {W N : Nat} {s : PoolState} (h : PoolInv W N s) :
    s.jobsBuf.length + Multiset.card (s.workers.map heldOf).sum + s.resultsBuf.length
      + s.received.length + 1 = nextJob N s.mainPc := by
  have hc := congrArg Multiset.card h.conserve
  simp only [Multiset.card_add, Multiset.coe_card, List.length_map, resultsUpTo_length] at hc
  have := (nextJob_bounds h.inRange).1
  omega

theorem held_card_pos {ws : List Worker} {k : Nat} {w : Worker} {job : Job}
    (hw : ws[k]? = some w) (hpc : w.pc = .send job) :
    1 ≤ Multiset.card (ws.map heldOf).sum := by
  have h := sum_map_set heldOf ws k w { pc := .recv, dones := 0 } hw
  have hc := congrArg Multiset.card h
  simp [heldOf, hpc] at hc
  omega

theorem held_zero_of_exited :
    ∀ (ws : List Worker), (∀ w ∈ ws, w.pc = .exited) → (ws.map heldOf).sum = 0
  | [], _ => by simp
  | w :: ws, h => by
    have h1 : heldOf w = 0 := by simp [heldOf, h w (by simp)]
    have h2 := held_zero_of_exited ws (fun a ha => h a (by simp [ha]))
    simp [h1, h2]

theorem pool_jobs_room {W N : Nat} {s : PoolState} (h : PoolInv W N s) {i : Nat}
    (hpc : s.mainPc = .sendLoop i) (hi : i ≤ N) : s.jobsBuf.length < N := by
  have hc := pool_card h
  rw [hpc] at hc
  simp only [nextJob] at hc
  omega

theorem pool_results_room {W N : Nat} {s : PoolState} (h : PoolInv W N s) {k : Nat}
    {w : Worker} {job : Job} (hw : s.workers[k]? = some w) (hpc : w.pc = .send job) :
    s.resultsBuf.length < N := by
  have hc := pool_card h
  have hp := held_card_pos hw hpc
  have := (nextJob_bounds h.inRange).2
  omega

theorem pool_buffers_le {W N : Nat} {s : PoolState} (h : PoolInv W N s) :
    s.jobsBuf.length ≤ N ∧ s.resultsBuf.length ≤ N := by
  have hc := pool_card h
  have := (nextJob_bounds h.inRange).2
  omega

theorem pool_closed_exited {W N : Nat} {s : PoolState} (h : PoolInv W N s)
    (hc : s.resultsClosed = true) :
    s.closer = .exited ∧ s.workers.length = W ∧ ∀ w ∈ s.workers, w.pc = .exited := by
  have hce := h.resultsClosedIff.1 hc
  have hst : closerStarted s.mainPc = true := by
    cases hcs : closerStarted s.mainPc with
    | true => rfl
    | false =>
      have := h.closerIff.2 hcs
      rw [hce] at this
      cases this
  refine ⟨hce, ?_, h.allExited (Or.inr hce)⟩
  rw [h.nWorkers]
  exact (started_full hst).1

theorem nextJob_started {N : Nat} {pc : MainPc} (h : closerStarted pc = true) :
    nextJob N pc = N + 1 := by
  cases pc <;> simp [closerStarted] at h <;> simp [nextJob]

theorem pool_exhausted_received {W N : Nat} {s : PoolState} (h : PoolInv W N s) (hW : 1 ≤ W)
    (hrc : s.resultsClosed = true) (hrb : s.resultsBuf = []) :
    (↑s.received : Multiset Result) = ↑(resultsUpTo (N + 1)) := by
  obtain ⟨hce, hlen, hall⟩ := pool_closed_exited h hrc
  have hst : closerStarted s.mainPc = true := by
    cases hcs : closerStarted s.mainPc with
    | true => rfl
    | false =>
      have := h.closerIff.2 hcs
      rw [hce] at this
      cases this
  have hjb : s.jobsBuf = [] := by
    cases hws : s.workers with
    | nil =>
      rw [hws] at hlen
      simp at hlen
      omega
    | cons w ws =>
      have hw : w ∈ s.workers := by simp [hws]
      exact (h.drained ⟨w, hw, Or.inr (hall w hw)⟩).1
  have hcons := h.conserve
  rw [hjb, hrb, held_zero_of_exited s.workers hall, nextJob_started hst] at hcons
  simpa using hcons

theorem resultsUpTo_ids (N : Nat) :
    (resultsUpTo (N + 1)).map Result.JobID = (List.range' 1 N).map (fun i : Nat => (i : Int)) := by
  simp [resultsUpTo, List.Ico, process, mkJob, Function.comp_def]

theorem pool_exhausted_ids {W N : Nat} {s : PoolState} (h : PoolInv W N s) (hW : 1 ≤ W)
    (hrc : s.resultsClosed = true) (hrb : s.resultsBuf = []) :
    s.received.length = N ∧
    (↑(s.received.map Result.JobID) : Multiset Int)
      = ↑((List.range' 1 N).map (fun i : Nat => (i : Int))) ∧
    (s.received.map Result.JobID).Nodup := by
  have hr := pool_exhausted_received h hW hrc hrb
  have hids : (↑(s.received.map Result.JobID) : Multiset Int)
      = ↑((List.range' 1 N).map (fun i : Nat => (i : Int))) := by
    rw [← resultsUpTo_ids, ← Multiset.map_coe, ← Multiset.map_coe, hr]
  refine ⟨?_, hids, ?_⟩
  · have := congrArg Multiset.card hr
    simpa [resultsUpTo_length] using this
  · rw [← Multiset.coe_nodup, hids, Multiset.coe_nodup]
    exact (List.nodup_range' 1 N).map Nat.cast_injective

/-! ### Every step advances the step counter by one -/

theorem mainStep_clock {W N : Nat} {s s' : PoolState} (h : PoolInv W N s)
    (hs : mainStep W N s = some s') : poolClock W N s' = poolClock W N s + 1 := by
  have h2 := h.inRange
  unfold mainStep at hs
  cases hpc : s.mainPc with
  | spawnLoop i =>
    rw [hpc] at hs h2
    simp only [pcInRange] at h2
    simp only at hs
    split_ifs at hs with hi <;> cases hs <;> simp only [poolClock, mainClock, hpc] <;> omega
  | goWorker i =>
    rw [hpc] at hs
    cases hs
    simp only [poolClock, mainClock, hpc, List.map_append, List.sum_append, List.map_cons,
      List.map_nil, List.sum_cons, List.sum_nil, workerClock]
    omega
  | sendLoop i =>
    rw [hpc] at hs h2
    simp only [pcInRange] at h2
    have h6 := h.jobsClosedIff
    rw [hpc] at h6
    simp only [afterClose] at h6
    simp only [h6, Bool.false_eq_true, if_false] at hs
    split_ifs at hs with hi hk <;> cases hs <;> simp only [poolClock, mainClock, hpc] <;> omega
  | closeJobs =>
    rw [hpc] at hs
    have h6 := h.jobsClosedIff
    rw [hpc] at h6
    simp only [afterClose] at h6
    simp only [h6, Bool.false_eq_true, if_false] at hs
    cases hs
    simp only [poolClock, mainClock, hpc]
    omega
  | goCloser =>
    rw [hpc] at hs
    have h7 := h.closerIff
    rw [hpc] at h7
    have hn : s.closer = .notStarted := by simpa [closerStarted] using h7
    cases hs
    simp only [poolClock, mainClock, hpc, hn, closerClock]
    omega
  | rangeResults =>
    rw [hpc] at hs
    cases hb : s.resultsBuf with
    | nil =>
      rw [hb] at hs
      simp only at hs
      split_ifs at hs with hi
      cases hs
      simp only [poolClock, mainClock, hpc, hb]
      omega
    | cons r rs =>
      rw [hb] at hs
      cases hs
      simp only [poolClock, mainClock, hpc, hb, List.length_cons, List.length_append,
        List.length_singleton, List.length_nil]
      omega
  | done =>
    rw [hpc] at hs
    cases hs

theorem workerStep_clock {W N : Nat} {s s' : PoolState} {k : Nat} (h : PoolInv W N s)
    (hs : workerStep N s k = some s') : poolClock W N s' = poolClock W N s + 1 := by
  have hnp := workerStep_inv h hs
  unfold workerStep at hs
  cases hw : s.workers[k]? with
  | none => simp [hw] at hs
  | some w =>
    simp only [hw] at hs
    have hsum := fun b => sum_map_set workerClock s.workers k w b hw
    obtain ⟨wpc, wd⟩ := w
    cases wpc with
    | recv =>
      simp only at hs
      cases hb : s.jobsBuf with
      | cons job js =>
        rw [hb] at hs
        cases hs
        have := hsum { pc := .send job, dones := wd }
        simp only [workerClock] at this
        simp only [poolClock]
        omega
      | nil =>
        rw [hb] at hs
        simp only at hs
        split_ifs at hs with hjc
        cases hs
        have := hsum { pc := .deferDone, dones := wd }
        simp only [workerClock] at this
        simp only [poolClock]
        omega
    | send job =>
      simp only at hs
      split_ifs at hs with hrc hlen
      · cases hs
        have := hnp.noPanic
        simp at this
      · cases hs
        have := hsum { pc := .recv, dones := wd }
        simp only [workerClock] at this
        simp only [poolClock, List.length_append, List.length_singleton]
        omega
    | deferDone =>
      simp only at hs
      split_ifs at hs with hwg
      · cases hs
        have := hnp.noPanic
        simp at this
      · cases hs
        have := hsum { pc := .exited, dones := wd + 1 }
        simp only [workerClock] at this
        simp only [poolClock]
        omega
    | exited =>
      simp only at hs
      cases hs

theorem closerStep_clock {W N : Nat} {s s' : PoolState} (h : PoolInv W N s)
    (hs : closerStep s = some s') : poolClock W N s' = poolClock W N s + 1 := by
  have hnp := closerStep_inv h hs
  unfold closerStep at hs
  cases hc : s.closer with
  | notStarted => simp [hc] at hs
  | exited => simp [hc] at hs
  | waiting =>
    simp only [hc] at hs
    split_ifs at hs with hz
    cases hs
    simp only [poolClock, closerClock, hc]
  | closing =>
    simp only [hc] at hs
    split_ifs at hs with hrc
    · cases hs
      have := hnp.noPanic
      simp at this
    · cases hs
      simp only [poolClock, closerClock, hc]

theorem poolStep_clock {W N : Nat} {s s' : PoolState} {t : PoolTask} (h : PoolInv W N s)
    (hs : poolStep W N s t = some s') : poolClock W N s' = poolClock W N s + 1 := by
  unfold poolStep at hs
  rw [h.noPanic] at hs
  simp only [Bool.false_eq_true, if_false] at hs
  cases t with
  | main => exact mainStep_clock h hs
  | worker k => exact workerStep_clock h hs
  | closer => exact closerStep_clock h hs

theorem pool_run_clock (W N : Nat) :
    ∀ (sched : List PoolTask) (s s' : PoolState), PoolInv W N s →
      run (poolStep W N) s sched = some s' →
      poolClock W N s' = poolClock W N s + sched.length
  | [], s, s', _, h => by
    simp [run] at h
    subst h
    simp
  | t :: ts, s, s', hinv, h => by
    simp only [run] at h
    cases hst : poolStep W N s t with
    | none => simp [hst] at h
    | some s1 =>
      simp only [hst] at h
      have h1 := poolStep_clock hinv hst
      have h2 := pool_run_clock W N ts s1 s' (poolStep_inv W N s t s1 hinv hst) h
      simp only [List.length_cons]
      omega

theorem sum_le_mul {α : Type} (f : α → Nat) (c : Nat) :
    ∀ (l : List α), (∀ a ∈ l, f a ≤ c) → (l.map f).sum ≤ c * l.length
  | [], _ => by simp
  | x :: l, h => by
    have h1 := h x (by simp)
    have h2 := sum_le_mul f c l (fun a ha => h a (by simp [ha]))
    simp only [List.map_cons, List.sum_cons, List.length_cons, Nat.mul_succ]
    omega

theorem workerClock_le (w : Worker) : workerClock w ≤ 2 := by
  unfold workerClock
  split <;> omega

theorem mainClock_le {W N : Nat} {pc : MainPc} (h : pcInRange W N pc) :
    mainClock W N pc ≤ 2 * W + N + 7 := by
  cases pc <;> simp only [pcInRange, mainClock] at * <;> omega

theorem closerClock_le (c : CloserPc) : closerClock c ≤ 2 := by
  cases c <;> simp [closerClock]

theorem spawned_le {W N : Nat} {pc : MainPc} (h : pcInRange W N pc) : spawned W pc ≤ W := by
  cases pc <;> simp only [pcInRange, spawned] at * <;> omega

theorem poolClock_le {W N : Nat} {s : PoolState} (h : PoolInv W N s) :
    poolClock W N s ≤ 4 * W + 4 * N + 9 := by
  have h1 := mainClock_le h.inRange
  have h2 := sum_le_mul workerClock 2 s.workers (fun a _ => workerClock_le a)
  have h3 := closerClock_le s.closer
  have h4 := pool_card h
  have h5 := (nextJob_bounds h.inRange).2
  have h6 := spawned_le h.inRange
  have h7 := h.nWorkers
  unfold poolClock
  omega

theorem pool_sched_bound (W N : Nat) (sched : List PoolTask) (s : PoolState)
    (h : run (poolStep W N) poolInit sched = some s) : sched.length ≤ 4 * W + 4 * N + 7 := by
  have h1 := pool_run_clock W N sched poolInit s (poolInit_inv W N) h
  have h2 := poolClock_le (pool_reach_inv W N sched s h)
  have h3 : poolClock W N poolInit = 2 := by simp [poolClock, poolInit, mainClock, closerClock]
  omega

/-! ### Progress of the worker pool -/

theorem sum_eq_length_of_all_one {α : Type} (f : α → Nat) :
    ∀ (l : List α), (∀ a ∈ l, f a = 1) → (l.map f).sum = l.length
  | [], _ => by simp
  | x :: l, h => by
    have h1 := h x (by simp)
    have h2 := sum_eq_length_of_all_one f l (fun a ha => h a (by simp [ha]))
    simp only [List.map_cons, List.sum_cons, List.length_cons]
    omega

theorem pool_live_worker {W N : Nat} {s : PoolState} (h : PoolInv W N s)
    (hst : closerStarted s.mainPc = true) (hwg : s.wg ≠ 0) :
    ∃ (k : Nat) (w : Worker), s.workers[k]? = some w ∧ w.pc ≠ .exited := by
  by_contra hcon
  have hall : ∀ w ∈ s.workers, w.pc = .exited := by
    intro w hw
    by_contra hne
    obtain ⟨k, hk⟩ := List.mem_iff_getElem?.1 hw
    exact hcon ⟨k, w, hk, hne⟩
  have hsum := sum_eq_length_of_all_one Worker.dones s.workers (fun a ha => by
    rw [h.doneOnce a ha, if_pos (hall a ha)])
  have hfull := started_full (W := W) hst
  have hc := h.counter
  have hn := h.nWorkers
  omega

theorem worker_can_step {W N : Nat} {s : PoolState} (h : PoolInv W N s)
    (hjc : s.jobsClosed = true) {k : Nat} {w : Worker} (hw : s.workers[k]? = some w)
    (hne : w.pc ≠ .exited) : (workerStep N s k).isSome = true := by
  unfold workerStep
  simp only [hw]
  obtain ⟨wpc, wd⟩ := w
  cases wpc with
  | recv =>
    simp only
    cases hb : s.jobsBuf with
    | cons job js => simp
    | nil => simp [hjc]
  | send job =>
    have hroom := pool_results_room h hw rfl
    simp only
    split_ifs <;> simp
  | deferDone =>
    simp only
    split_ifs <;> simp
  | exited => simp at hne

theorem pool_progress {W N : Nat} {s : PoolState} (h : PoolInv W N s)
    (hnd : s.mainPc ≠ .done) : ∃ t, (poolStep W N s t).isSome = true := by
  have hnp := h.noPanic
  have h6 := h.jobsClosedIff
  cases hpc : s.mainPc with
  | spawnLoop i =>
    refine ⟨.main, ?_⟩
    simp only [poolStep, hnp, Bool.false_eq_true, if_false, mainStep, hpc]
    split_ifs <;> simp
  | goWorker i =>
    refine ⟨.main, ?_⟩
    simp [poolStep, hnp, mainStep, hpc]
  | sendLoop i =>
    refine ⟨.main, ?_⟩
    rw [hpc] at h6
    simp only [afterClose] at h6
    simp only [poolStep, hnp, mainStep, hpc, h6]
    by_cases hi : i ≤ N
    · have := pool_jobs_room h hpc hi
      simp [hi, this]
    · simp [hi]
  | closeJobs =>
    refine ⟨.main, ?_⟩
    rw [hpc] at h6
    simp only [afterClose] at h6
    simp [poolStep, hnp, mainStep, hpc, h6]
  | goCloser =>
    refine ⟨.main, ?_⟩
    simp [poolStep, hnp, mainStep, hpc]
  | done => exact absurd hpc hnd
  | rangeResults =>
    rw [hpc] at h6
    simp only [afterClose] at h6
    have hst : closerStarted s.mainPc = true := by simp [hpc, closerStarted]
    cases hb : s.resultsBuf with
    | cons r rs =>
      refine ⟨.main, ?_⟩
      simp [poolStep, hnp, mainStep, hpc, hb]
    | nil =>
      cases hc : s.closer with
      | notStarted =>
        have := h.closerIff.1 hc
        rw [hst] at this
        cases this
      | exited =>
        refine ⟨.main, ?_⟩
        have hrc := h.resultsClosedIff.2 hc
        simp [poolStep, hnp, mainStep, hpc, hb, hrc]
      | closing =>
        refine ⟨.closer, ?_⟩
        simp only [poolStep, hnp, Bool.false_eq_true, if_false, closerStep, hc]
        split_ifs <;> simp
      | waiting =>
        by_cases hwg : s.wg = 0
        · refine ⟨.closer, ?_⟩
          simp [poolStep, hnp, closerStep, hc, hwg]
        · obtain ⟨k, w, hw, hne⟩ := pool_live_worker h hst hwg
          refine ⟨.worker k, ?_⟩
          have := worker_can_step h h6 hw hne
          simpa [poolStep, hnp] using this

theorem pool_done_stuck (W N : Nat) {s : PoolState} (hd : s.mainPc = .done)
    (hc : s.closer = .exited) (hall : ∀ w ∈ s.workers, w.pc = .exited) (t : PoolTask) :
    poolStep W N s t = none := by
  cases t with
  | main => simp [poolStep, mainStep, hd]
  | closer => simp [poolStep, closerStep, hc]
  | worker k =>
    simp only [poolStep, workerStep]
    cases hw : s.workers[k]? with
    | none => simp
    | some w =>
      have := hall w (List.getElem?_mem hw)
      simp [this]

/-! ## The pipeline `square(generate(nums...))` -/

theorem pipeInit_inv (nums : List Int) : PipeInv nums pipeInit := by
  constructor <;> simp [pipeInit, pipeStarted, sqHeld, genRest]

theorem pipeStep_inv (nums : List Int) (s : PipeState) (t : PipeTask) (s' : PipeState)
    (h : PipeInv nums s) (hs : pipeStep nums s t = some s') : PipeInv nums s' := by
  obtain ⟨h1, h2, h3, h4, h5, h6⟩ := h
  unfold pipeStep at hs
  rw [h1] at hs
  simp only [Bool.false_eq_true, if_false] at hs
  cases t with
  | caller =>
    unfold pipeCallerStep at hs
    cases hc : s.caller <;> rw [hc] at hs h4 <;> simp only [pipeStarted] at h4 hs
    · cases hs
      constructor <;> simp_all [pipeStarted, sqHeld, genRest]
    · cases hs
      constructor <;> simp_all [pipeStarted, sqHeld, genRest]
    · split_ifs at hs with hcl
      cases hs
      constructor <;> simp_all [pipeStarted, sqHeld, genRest]
    · cases hs
  | gen =>
    unfold generateStep at hs
    cases hg : s.gen with
    | notStarted => simp [hg] at hs
    | exited => simp [hg] at hs
    | loop rest =>
      have hgc : s.genOutClosed = false := by
        cases hx : s.genOutClosed with
        | false => rfl
        | true =>
          have := h2.1 hx
          rw [hg] at this
          cases this
      cases rest with
      | nil =>
        simp only [hg, hgc, Bool.false_eq_true, if_false] at hs
        cases hs
        constructor <;> simp_all [pipeStarted, sqHeld, genRest]
        cases hc : s.caller <;> simp_all [pipeStarted]
      | cons n rest =>
        simp only [hg, hgc, Bool.false_eq_true, if_false] at hs
        split_ifs at hs with hq
        cases hs
        constructor <;> simp_all [pipeStarted, sqHeld, genRest]
        cases hc : s.caller <;> simp_all [pipeStarted]
  | sq =>
    unfold squareStep at hs
    cases hq : s.sq with
    | notStarted => simp [hq] at hs
    | exited => simp [hq] at hs
    | recv =>
      simp only [hq] at hs
      split_ifs at hs with hgc
      cases hs
      constructor <;> simp_all [pipeStarted, sqHeld, genRest]
      cases hc : s.caller <;> simp_all [pipeStarted]
    | send n =>
      have hqc : s.sqOutClosed = false := by
        cases hx : s.sqOutClosed with
        | false => rfl
        | true =>
          have := h3.1 hx
          rw [hq] at this
          cases this
      simp only [hq, hqc, Bool.false_eq_true, if_false] at hs
      split_ifs at hs with hcd
      cases hs
      constructor <;> simp_all [pipeStarted, sqHeld, genRest]
    | closing =>
      have hqc : s.sqOutClosed = false := by
        cases hx : s.sqOutClosed with
        | false => rfl
        | true =>
          have := h3.1 hx
          rw [hq] at this
          cases this
      simp only [hq, hqc, Bool.false_eq_true, if_false] at hs
      cases hs
      constructor <;> simp_all [pipeStarted, sqHeld, genRest]
      cases hc : s.caller <;> simp_all [pipeStarted]

theorem pipe_reach_inv (nums : List Int) (sched : List PipeTask) (s : PipeState)
    (h : run (pipeStep nums) pipeInit sched = some s) : PipeInv nums s :=
  inv_run (pipeStep nums) (PipeInv nums) (pipeStep_inv nums) sched pipeInit s
    (pipeInit_inv nums) h

theorem pipeStep_clock {nums : List Int} {s s' : PipeState} {t : PipeTask}
    (h : PipeInv nums s) (hs : pipeStep nums s t = some s') :
    pipeClock s' = pipeClock s + 1 := by
  have hinv := pipeStep_inv nums s t s' h hs
  have hnp := hinv.noPanic
  obtain ⟨h1, h2, h3, h4, h5, h6⟩ := h
  unfold pipeStep at hs
  rw [h1] at hs
  simp only [Bool.false_eq_true, if_false] at hs
  cases t with
  | caller =>
    unfold pipeCallerStep at hs
    cases hc : s.caller <;> rw [hc] at hs h4 <;> simp only [pipeStarted] at h4 hs
    · cases hs
      simp only [pipeClock, hc, h4.1, h4.2, sqHeld]
      omega
    · cases hs
      simp only [pipeClock, hc, h4.2, sqHeld]
      omega
    · split_ifs at hs with hcl
      cases hs
      simp only [pipeClock, hc]
      omega
    · cases hs
  | gen =>
    unfold generateStep at hs
    cases hg : s.gen with
    | notStarted => simp [hg] at hs
    | exited => simp [hg] at hs
    | loop rest =>
      cases rest with
      | nil =>
        simp only [hg] at hs
        split_ifs at hs with hx
        · cases hs
          simp at hnp
        · cases hs
          simp only [pipeClock, hg]
          omega
      | cons n rest =>
        simp only [hg] at hs
        split_ifs at hs with hx hq
        · cases hs
          simp at hnp
        · cases hs
          simp only [pipeClock, hg, hq, sqHeld, List.length_cons, List.length_nil]
  | sq =>
    unfold squareStep at hs
    cases hq : s.sq with
    | notStarted => simp [hq] at hs
    | exited => simp [hq] at hs
    | recv =>
      simp only [hq] at hs
      split_ifs at hs with hgc
      cases hs
      simp only [pipeClock, hq, sqHeld]
    | send n =>
      simp only [hq] at hs
      split_ifs at hs with hx hcd
      · cases hs
        simp at hnp
      · cases hs
        simp only [pipeClock, hq, sqHeld, List.length_append, List.length_cons, List.length_nil]
        omega
    | closing =>
      simp only [hq] at hs
      split_ifs at hs with hx
      · cases hs
        simp at hnp
      · cases hs
        simp only [pipeClock, hq, sqHeld]

theorem pipe_run_clock (nums : List Int) :
    ∀ (sched : List PipeTask) (s s' : PipeState), PipeInv nums s →
      run (pipeStep nums) s sched = some s' → pipeClock s' = pipeClock s + sched.length
  | [], s, s', _, h => by
    simp [run] at h
    subst h
    simp
  | t :: ts, s, s', hinv, h => by
    simp only [run] at h
    cases hst : pipeStep nums s t with
    | none => simp [hst] at h
    | some s1 =>
      simp only [hst] at h
      have h1 := pipeStep_clock hinv hst
      have h2 := pipe_run_clock nums ts s1 s' (pipeStep_inv nums s t s1 hinv hst) h
      simp only [List.length_cons]
      omega

theorem pipeClock_le {nums : List Int} {s : PipeState} (h : PipeInv nums s) :
    pipeClock s ≤ 2 * nums.length + 6 := by
  have hd := congrArg List.length h.data
  simp only [List.length_append, List.length_map] at hd
  unfold pipeClock
  cases s.caller <;> cases s.gen <;> cases s.sq <;> simp only [sqHeld, genRest] at * <;>
    simp only [List.length_cons, List.length_nil] at * <;> omega

theorem pipe_sched_bound (nums : List Int) (sched : List PipeTask) (s : PipeState)
    (h : run (pipeStep nums) pipeInit sched = some s) : sched.length ≤ 2 * nums.length + 6 := by
  have h1 := pipe_run_clock nums sched pipeInit s (pipeInit_inv nums) h
  have h2 := pipeClock_le (pipe_reach_inv nums sched s h)
  have h3 : pipeClock pipeInit = 0 := by simp [pipeClock, pipeInit, sqHeld]
  omega

theorem pipe_progress {nums : List Int} {s : PipeState} (h : PipeInv nums s)
    (hnd : s.caller ≠ .done) : ∃ t, (pipeStep nums s t).isSome = true := by
  obtain ⟨h1, h2, h3, h4, h5, h6⟩ := h
  cases hc : s.caller with
  | done => exact absurd hc hnd
  | callGenerate =>
    exact ⟨.caller, by simp [pipeStep, h1, pipeCallerStep, hc]⟩
  | callSquare =>
    exact ⟨.caller, by simp [pipeStep, h1, pipeCallerStep, hc]⟩
  | drain =>
    rw [hc] at h4
    simp only [pipeStarted] at h4
    cases hq : s.sq with
    | notStarted => exact absurd hq h4.2
    | exited =>
      refine ⟨.caller, ?_⟩
      have := h3.2 hq
      simp [pipeStep, h1, pipeCallerStep, hc, this]
    | closing =>
      refine ⟨.sq, ?_⟩
      simp only [pipeStep, h1, Bool.false_eq_true, if_false, squareStep, hq]
      split_ifs <;> simp
    | send n =>
      refine ⟨.sq, ?_⟩
      simp only [pipeStep, h1, Bool.false_eq_true, if_false, squareStep, hq, hc]
      split_ifs <;> simp
    | recv =>
      cases hg : s.gen with
      | notStarted => exact absurd hg h4.1
      | exited =>
        refine ⟨.sq, ?_⟩
        have := h2.2 hg
        simp [pipeStep, h1, squareStep, hq, this]
      | loop rest =>
        refine ⟨.gen, ?_⟩
        cases rest with
        | nil =>
          simp only [pipeStep, h1, Bool.false_eq_true, if_false, generateStep, hg]
          split_ifs <;> simp
        | cons n rest =>
          simp only [pipeStep, h1, Bool.false_eq_true, if_false, generateStep, hg, hq]
          split_ifs <;> simp

theorem pipe_done_received {nums : List Int} {s : PipeState} (h : PipeInv nums s)
    (hd : s.caller = .done) : s.received = nums.map squareInt := by
  have h4 := h.started
  rw [hd] at h4
  simp only [pipeStarted] at h4
  have hg := h.sqTail (Or.inr h4.2)
  have := h.data
  rw [h4.2, hg] at this
  simpa [sqHeld, genRest] using this

/-! ## The fan-in `merge` -/

theorem getElem?_set_cases {α : Type} {l : List α} {k j : Nat} {b x : α}
    (hj : (l.set k b)[j]? = some x) : (j = k ∧ x = b) ∨ (j ≠ k ∧ l[j]? = some x) := by
  rw [List.getElem?_set] at hj
  by_cases hkj : k = j
  · subst hkj
    rw [if_pos rfl] at hj
    split_ifs at hj
    left
    exact ⟨rfl, (Option.some.inj hj).symm⟩
  · rw [if_neg hkj] at hj
    exact Or.inr ⟨fun h => hkj h.symm, hj⟩

theorem recvAt_append (j k : Nat) (v : Int) (r : List (Nat × Int)) :
    recvAt j (r ++ [(k, v)]) = recvAt j r ++ (if k = j then [v] else []) := by
  unfold recvAt
  by_cases h : k = j <;> simp [List.filter_append, List.filter_cons, h]

theorem sum_laneRest_init (piped : Bool) :
    ∀ (inputs : List (List Int)),
      ((inputs.map (fun l : List Int =>
          ({ src := l, srcClosed := false, fwd := .notStarted, dones := 0 } : Lane))).map
        (laneRest piped)).sum = ↑(inputs.flatten.map (post piped))
  | [] => by simp
  | l :: ls => by
    have ih := sum_laneRest_init piped ls
    simp only [List.map_cons, List.sum_cons, ih, List.flatten_cons, List.map_append,
      laneRest, fwdHeld, List.nil_append, Multiset.coe_add]

theorem sum_zero_of_all_zero {α : Type} (f : α → Nat) :
    ∀ (l : List α), (∀ a ∈ l, f a = 0) → (l.map f).sum = 0
  | [], _ => by simp
  | x :: l, h => by
    have h1 := h x (by simp)
    have h2 := sum_zero_of_all_zero f l (fun a ha => h a (by simp [ha]))
    simp [h1, h2]

theorem mergeInit_inv (piped : Bool) (inputs : List (List Int)) :
    MergeInv piped inputs (mergeInit inputs) := by
  constructor <;> simp only [mergeInit]
  case lanesOk =>
    intro j l hj
    simp only [List.getElem?_map] at hj
    cases hi : inputs[j]? with
    | none => simp [hi] at hj
    | some inp =>
      simp only [hi, Option.map_some', Option.some.injEq] at hj
      subst hj
      constructor <;> simp [spawnedM, recvAt, sqHeldAt, fwdHeld, hi]
  case conserve =>
    simp only [List.map_nil, sqHeldAll, Multiset.coe_nil, zero_add]
    exact sum_laneRest_init piped inputs
  case counter =>
    rw [sum_zero_of_all_zero]
    · simp [armedM]
    · intro a ha
      simp only [List.mem_map] at ha
      obtain ⟨l, _, rfl⟩ := ha
      rfl
  all_goals simp [callerInRange, armedM, closerStartedM, ranging]

theorem mergeCallerStep_inv {piped : Bool} {inputs : List (List Int)} {s s' : MergeState}
    (h : MergeInv piped inputs s) (hs : mergeCallerStep piped s = some s') :
    MergeInv piped inputs s' := by
  obtain ⟨hnp, hlen, hrng, hlanes, hcnt, hcl, hoc, hall, hcons, hsq, hsqc, hsqt, hdc⟩ := h
  unfold mergeCallerStep at hs
  cases hc : s.caller with
  | addWg =>
    rw [hc] at hs hrng hlanes hcnt hcl hsq hdc
    simp only [callerInRange, spawnedM, armedM, closerStartedM, ranging, sqHeldAt, sqHeldAll, List.length_set] at *
    have hz : (s.lanes.map Lane.dones).sum = 0 := by
      apply sum_zero_of_all_zero
      intro l hl
      obtain ⟨j, hj⟩ := List.mem_iff_getElem?.1 hl
      have hL := hlanes j l hj
      rw [hL.doneOnce, if_neg]
      rw [hL.started.2 (Nat.zero_le j)]
      simp
    rw [hz] at hcnt
    rw [if_neg (by omega)] at hs
    cases hs
    constructor <;> (try simp only [callerInRange, spawnedM, armedM, closerStartedM, ranging, sqHeldAt, sqHeldAll, List.length_set]) <;> first | assumption | omega | (intro hc; cases hc; done) | skip
  | spawn k =>
    rw [hc] at hs hrng hlanes hcnt hcl hsq hdc
    simp only [callerInRange, spawnedM, armedM, closerStartedM, ranging, sqHeldAt, sqHeldAll, List.length_set] at *
    have hn : s.closer = .notStarted := by simpa using hcl
    cases hk : s.lanes[k]? with
    | none =>
      simp only [hk] at hs
      cases hs
      have hkK : k = inputs.length := by
        have := List.getElem?_eq_none_iff.1 hk
        omega
      subst hkK
      constructor <;> (try simp only [callerInRange, spawnedM, armedM, closerStartedM, ranging, sqHeldAt, sqHeldAll, List.length_set]) <;> first | assumption | omega | (intro hc; cases hc; done) | skip
    | some l =>
      simp only [hk] at hs
      cases hs
      have hkK : k < inputs.length := by
        have := (List.getElem?_eq_some.1 hk).1
        omega
      have hL := hlanes k l hk
      have hns : l.fwd = .notStarted := hL.started.2 (Nat.le_refl k)
      have hd0 : l.dones = 0 := by
        rw [hL.doneOnce, if_neg]
        rw [hns]
        simp
      constructor <;> (try simp only [callerInRange, spawnedM, armedM, closerStartedM, ranging, sqHeldAt, sqHeldAll, List.length_set]) <;> first | assumption | omega | (intro hc; cases hc; done) | skip
      case lanesOk =>
        intro j x hj
        rcases getElem?_set_cases hj with ⟨rfl, rfl⟩ | ⟨hne, hj'⟩
        · constructor
          · simp
          · simpa using hd0
          · exact hL.closedNil
          · intro hx
            simp at hx
          · simpa [fwdHeld, hns] using hL.data
        · have hJ := hlanes j x hj'
          constructor
          · rw [hJ.started]
            omega
          · exact hJ.doneOnce
          · exact hJ.closedNil
          · exact hJ.tailClosed
          · exact hJ.data
      case counter =>
        have := sum_map_set Lane.dones s.lanes k l { l with fwd := .recv } hk
        simp only [add_left_inj] at this
        rw [this]
        exact hcnt
      case allExited =>
        intro hx
        rw [hn] at hx
        simp at hx
      case conserve =>
        have := sum_map_set (laneRest piped) s.lanes k l { l with fwd := .recv } hk
        simp only [laneRest, fwdHeld, hns, add_left_inj] at this
        rw [this]
        exact hcons
  | goCloser =>
    rw [hc] at hs hrng hlanes hcnt hcl hsq hdc
    simp only [callerInRange, spawnedM, armedM, closerStartedM, ranging, sqHeldAt, sqHeldAll, List.length_set] at *
    have hn : s.closer = .notStarted := by simpa using hcl
    have hsn : s.sq = .notStarted := by simpa using hsq
    cases hs
    cases piped
    · constructor <;> (try simp only [callerInRange, spawnedM, armedM, closerStartedM, ranging, sqHeldAt, sqHeldAll, List.length_set]) <;> first | assumption | omega | (intro hc; cases hc; done) | skip
      all_goals simp_all
    · constructor <;> (try simp only [callerInRange, spawnedM, armedM, closerStartedM, ranging, sqHeldAt, sqHeldAll, List.length_set]) <;> first | assumption | omega | (intro hc; cases hc; done) | skip
      all_goals simp_all
  | callSquare =>
    rw [hc] at hs hrng hlanes hcnt hcl hsq hdc
    simp only [callerInRange, spawnedM, armedM, closerStartedM, ranging, sqHeldAt, sqHeldAll, List.length_set] at *
    have hsn : s.sq = .notStarted := by simpa using hsq
    cases hs
    constructor <;> (try simp only [callerInRange, spawnedM, armedM, closerStartedM, ranging, sqHeldAt, sqHeldAll, List.length_set]) <;> first | assumption | omega | (intro hc; cases hc; done) | skip
    all_goals simp_all [sqHeldAt, sqHeldAll]
  | drain =>
    rw [hc] at hs hrng hlanes hcnt hcl hsq hdc
    simp only [callerInRange, spawnedM, armedM, closerStartedM, ranging, sqHeldAt, sqHeldAll, List.length_set] at *
    cases piped
    · simp only [Bool.false_eq_true, if_false] at hs
      split_ifs at hs with hx
      cases hs
      constructor <;> (try simp only [callerInRange, spawnedM, armedM, closerStartedM, ranging, sqHeldAt, sqHeldAll, List.length_set]) <;> first | assumption | omega | (intro hc; cases hc; done) | skip
      all_goals simp_all
    · simp only [if_true] at hs
      split_ifs at hs with hx
      cases hs
      constructor <;> (try simp only [callerInRange, spawnedM, armedM, closerStartedM, ranging, sqHeldAt, sqHeldAll, List.length_set]) <;> first | assumption | omega | (intro hc; cases hc; done) | skip
      all_goals simp_all
  | done =>
    rw [hc] at hs
    cases hs

theorem forall_set {α : Type} {lanes : List α} {k : Nat} {b : α} {P P' : Nat → α → Prop}
    (h : ∀ j l, lanes[j]? = some l → P j l) (hk : P' k b)
    (hframe : ∀ j l, j ≠ k → P j l → P' j l) :
    ∀ j x, (lanes.set k b)[j]? = some x → P' j x := by
  intro j x hj
  rcases getElem?_set_cases hj with ⟨rfl, rfl⟩ | ⟨hne, hj'⟩
  · exact hk
  · exact hframe j x hne (h j x hj')

theorem producerStep_inv {piped : Bool} {inputs : List (List Int)} {s s' : MergeState}
    {k : Nat} (h : MergeInv piped inputs s) (hs : producerStep s k = some s') :
    MergeInv piped inputs s' := by
  obtain ⟨hnp, hlen, hrng, hlanes, hcnt, hcl, hoc, hall, hcons, hsq, hsqc, hsqt, hdc⟩ := h
  unfold producerStep at hs
  cases hk : s.lanes[k]? with
  | none => simp [hk] at hs
  | some l =>
    simp only [hk] at hs
    have hmem : l ∈ s.lanes := List.getElem?_mem hk
    have hL := hlanes k l hk
    have hdones := fun b => sum_map_set Lane.dones s.lanes k l b hk
    have hrest := fun b => sum_map_set (laneRest piped) s.lanes k l b hk
    obtain ⟨src, srcClosed, fwd, dones⟩ := l
    simp only at hs hL hdones hrest
    cases src with
    | cons n rest =>
      simp only at hs
      rcases Decidable.em (fwd = .recv) with hf | hf
      swap
      · rw [if_neg hf] at hs
        cases hs
      rw [if_pos hf] at hs
      subst hf
      cases hs
      have hnc : srcClosed = false := by
        cases hx : srcClosed with
        | false => rfl
        | true =>
          have := hL.closedNil hx
          simp at this
      subst hnc
      have hd := hdones { src := rest, srcClosed := false, fwd := .send n, dones := dones }
      have hr := hrest { src := rest, srcClosed := false, fwd := .send n, dones := dones }
      simp only [add_left_inj, laneRest, fwdHeld, List.nil_append, List.singleton_append] at hd hr
      constructor <;> (try simp only [List.length_set]) <;> first | assumption | omega | (intro hc; cases hc; done) | skip
      case lanesOk =>
        refine forall_set hlanes ?_ (fun j l _ hJ => hJ)
        obtain ⟨a1, a2, a3, a4, a5⟩ := hL
        constructor
        · simpa using a1
        · simpa using a2
        · intro hx
          cases hx
        · intro hx
          simp at hx
        · simpa [fwdHeld] using a5
      case allExited =>
        intro hx
        have := hall hx _ hmem
        simp at this
      case conserve =>
        rw [hr]
        exact hcons
    | nil =>
      simp only at hs
      rcases Decidable.em (srcClosed = true) with hx | hx
      · rw [if_pos hx] at hs
        cases hs
      rw [if_neg hx] at hs
      cases hs
      have hd := hdones { src := [], srcClosed := true, fwd := fwd, dones := dones }
      have hr := hrest { src := [], srcClosed := true, fwd := fwd, dones := dones }
      simp only [add_left_inj, laneRest] at hd hr
      constructor <;> (try simp only [List.length_set]) <;> first | assumption | omega | (intro hc; cases hc; done) | skip
      case lanesOk =>
        refine forall_set hlanes ?_ (fun j l _ hJ => hJ)
        obtain ⟨a1, a2, a3, a4, a5⟩ := hL
        constructor
        · exact a1
        · exact a2
        · intro _
          rfl
        · intro _
          rfl
        · exact a5
      case allExited =>
        intro hx w hw
        rcases mem_set_cases hw with rfl | hw
        · exact hall hx { src := [], srcClosed := srcClosed, fwd := fwd, dones := dones } hmem
        · exact hall hx w hw
      case conserve =>
        rw [hr]
        exact hcons

theorem armedM_of_spawned {K j : Nat} {c : MergeCallerPc} (h : ¬ spawnedM K c ≤ j) :
    armedM K c = K := by
  cases c <;> simp [spawnedM, armedM] at *

theorem forwarderStep_inv {piped : Bool} {inputs : List (List Int)} {s s' : MergeState}
    {k : Nat} (h : MergeInv piped inputs s) (hs : forwarderStep piped s k = some s') :
    MergeInv piped inputs s' := by
  obtain ⟨hnp, hlen, hrng, hlanes, hcnt, hcl, hoc, hall, hcons, hsq, hsqc, hsqt, hdc⟩ := h
  unfold forwarderStep at hs
  cases hk : s.lanes[k]? with
  | none => simp [hk] at hs
  | some l =>
    simp only [hk] at hs
    have hmem : l ∈ s.lanes := List.getElem?_mem hk
    have hL := hlanes k l hk
    have hdones := fun b => sum_map_set Lane.dones s.lanes k l b hk
    have hrest := fun b => sum_map_set (laneRest piped) s.lanes k l b hk
    have hopen : l.fwd ≠ .exited → s.outClosed = false := by
      intro hne
      cases hx : s.outClosed with
      | false => rfl
      | true => exact absurd (hall (Or.inr (hoc.1 hx)) l hmem) hne
    have hvac : l.fwd ≠ .exited → ∀ ls : List Lane,
        (s.closer = .closing ∨ s.closer = .exited → ∀ w ∈ ls, w.fwd = .exited) := by
      intro hne ls hx
      exact absurd (hall hx l hmem) hne
    obtain ⟨src, srcClosed, fwd, dones⟩ := l
    simp only at hs hL hdones hrest hopen hvac
    obtain ⟨a1, a2, a3, a4, a5⟩ := hL
    cases fwd with
    | notStarted => simp at hs
    | exited => simp at hs
    | recv =>
      simp only at hs
      rcases Decidable.em (srcClosed = true) with hx | hx
      swap
      · rw [if_neg hx] at hs
        cases hs
      rw [if_pos hx] at hs
      cases hs
      have hd := hdones { src := src, srcClosed := srcClosed, fwd := .deferDone, dones := dones }
      have hr := hrest { src := src, srcClosed := srcClosed, fwd := .deferDone, dones := dones }
      simp only [add_left_inj, laneRest, fwdHeld] at hd hr
      constructor <;> (try simp only [List.length_set]) <;> first | assumption | omega | (intro hc; cases hc; done) | skip
      case lanesOk =>
        refine forall_set hlanes ?_ (fun j l _ hJ => hJ)
        constructor
        · simpa using a1
        · simpa using a2
        · exact a3
        · intro _
          exact hx
        · simpa [fwdHeld] using a5
      case allExited => exact hvac (by simp) _
      case conserve =>
        rw [hr]
        exact hcons
    | send n =>
      simp only at hs
      have ho := hopen (by simp)
      rw [if_neg (by rw [ho]; simp)] at hs
      have hd := hdones { src := src, srcClosed := srcClosed, fwd := .recv, dones := dones }
      simp only [add_left_inj] at hd
      have hr' : ∀ b : Lane, laneRest piped b = ↑(src.map (post piped)) →
          (s.lanes.map (laneRest piped)).sum
            = {post piped n} + ((s.lanes.set k b).map (laneRest piped)).sum := by
        intro b hb
        have hr := hrest b
        rw [hb] at hr
        simp only [laneRest, fwdHeld, List.singleton_append, List.map_cons, ← Multiset.cons_coe,
          ← Multiset.singleton_add] at hr
        have h1 : ((s.lanes.set k b).map (laneRest piped)).sum + {post piped n}
              + ↑(src.map (post piped))
            = (s.lanes.map (laneRest piped)).sum + ↑(src.map (post piped)) := by
          rw [← hr]
          abel
        have h2 := add_right_cancel h1
        rw [← h2]
        abel
      have hrb := hr' { src := src, srcClosed := srcClosed, fwd := .recv, dones := dones } rfl
      cases piped with
      | true =>
        simp only [if_true] at hs
        rcases Decidable.em (s.sq = .recv) with hq | hq
        swap
        · rw [if_neg hq] at hs
          cases hs
        rw [if_pos hq] at hs
        rw [hq] at hsq hsqc hsqt hcons
        cases hs
        constructor <;> (try simp only [List.length_set]) <;> first | assumption | omega | (intro hc; cases hc; done) | skip
        case lanesOk =>
          refine forall_set hlanes ?_ ?_
          · constructor
            · simpa using a1
            · simpa using a2
            · exact a3
            · intro hx
              simp at hx
            · simpa [fwdHeld, sqHeldAt, hq] using a5
          · intro j l hne hJ
            have hkj : ¬ k = j := fun h => hne h.symm
            have e1 : sqHeldAt j (TagSquarePc.send k n) = [] := by
              simp [sqHeldAt, hkj]
            have e2 : sqHeldAt j s.sq = [] := by simp [hq, sqHeldAt]
            rw [e1]
            rw [e2] at hJ
            exact hJ
        case allExited => exact hvac (by simp) _
        case conserve =>
          rw [← hcons, hrb]
          simp only [sqHeldAll, List.map_cons, List.map_nil, ← Multiset.coe_singleton,
            Multiset.coe_nil]
          abel
        case sqIff => simpa using hsq
        case sqClosedIff => simpa using hsqc
        case sqTail =>
          intro hx
          simp at hx
      | false =>
        simp only [Bool.false_eq_true, if_false] at hs
        rcases Decidable.em (s.caller = .drain) with hq | hq
        swap
        · rw [if_neg hq] at hs
          cases hs
        rw [if_pos hq] at hs
        cases hs
        constructor <;> (try simp only [List.length_set]) <;> first | assumption | omega | (intro hc; cases hc; done) | skip
        case lanesOk =>
          refine forall_set hlanes ?_ ?_
          · constructor
            · simpa using a1
            · simpa using a2
            · exact a3
            · intro hx
              simp at hx
            · have hsn : s.sq = .notStarted := hsq.2 (by simp)
              rw [recvAt_append, if_pos rfl]
              simpa [fwdHeld, post, List.append_assoc, hsn, sqHeldAt] using a5
          · intro j l hne hJ
            obtain ⟨b1, b2, b3, b4, b5⟩ := hJ
            refine ⟨b1, b2, b3, b4, ?_⟩
            rw [recvAt_append, if_neg (fun h : k = j => hne h.symm), List.append_nil]
            exact b5
        case allExited => exact hvac (by simp) _
        case conserve =>
          rw [← hcons, hrb]
          simp only [List.map_append, List.map_cons, List.map_nil, ← Multiset.coe_add,
            ← Multiset.coe_singleton, post, Bool.false_eq_true, if_false]
          abel
    | deferDone =>
      simp only at hs
      have hd0 : dones = 0 := by simpa using a2
      subst hd0
      have hd := hdones { src := src, srcClosed := srcClosed, fwd := .exited, dones := 0 + 1 }
      have hr := hrest { src := src, srcClosed := srcClosed, fwd := .exited, dones := 0 + 1 }
      simp only [add_left_inj, laneRest, fwdHeld, add_zero] at hd hr
      have hone : ∀ b : Lane, b.dones = 1 → ∀ w ∈ s.lanes.set k b, Lane.dones w ≤ 1 := by
        intro b hb w hw
        obtain ⟨j, hj⟩ := List.mem_iff_getElem?.1 hw
        rcases getElem?_set_cases hj with ⟨_, rfl⟩ | ⟨_, hj'⟩
        · omega
        · rw [(hlanes j w hj').doneOnce]
          split_ifs <;> omega
      have hbound := sum_le_length Lane.dones _
        (hone { src := src, srcClosed := srcClosed, fwd := .exited, dones := 0 + 1 } rfl)
      rw [hd] at hbound
      simp only [List.length_set] at hbound
      have harm := armedM_of_spawned (K := inputs.length) (c := s.caller) (j := k)
        (fun hle => absurd (a1.2 hle) (by simp))
      have hwg : ¬ (s.wg - 1 < 0) := by omega
      rw [if_neg hwg] at hs
      cases hs
      constructor <;> (try simp only [List.length_set]) <;> first | assumption | omega | (intro hc; cases hc; done) | skip
      case lanesOk =>
        refine forall_set hlanes ?_ (fun j l _ hJ => hJ)
        constructor
        · simpa using a1
        · simp
        · exact a3
        · intro _
          exact a4 (Or.inl rfl)
        · simpa [fwdHeld] using a5
      case allExited => exact hvac (by simp) _
      case conserve =>
        rw [hr]
        exact hcons

theorem startedM_full {K : Nat} {c : MergeCallerPc} (h : closerStartedM c = true) :
    spawnedM K c = K ∧ armedM K c = K := by
  cases c <;> simp [closerStartedM] at h <;> simp [spawnedM, armedM]

theorem mergeCloserStep_inv {piped : Bool} {inputs : List (List Int)} {s s' : MergeState}
    (h : MergeInv piped inputs s) (hs : mergeCloserStep s = some s') :
    MergeInv piped inputs s' := by
  obtain ⟨hnp, hlen, hrng, hlanes, hcnt, hcl, hoc, hall, hcons, hsq, hsqc, hsqt, hdc⟩ := h
  unfold mergeCloserStep at hs
  cases hc : s.closer with
  | notStarted => simp [hc] at hs
  | exited => simp [hc] at hs
  | waiting =>
    rw [hc] at hcl hoc hall
    simp only [hc] at hs
    rcases Decidable.em (s.wg = 0) with hz | hz
    swap
    · rw [if_neg hz] at hs
      cases hs
    rw [if_pos hz] at hs
    cases hs
    have hst : closerStartedM s.caller = true := by
      cases hcs : closerStartedM s.caller with
      | true => rfl
      | false => exact absurd (hcl.2 hcs) (by simp)
    constructor <;> (try simp only []) <;> first | assumption | omega | (intro hc; cases hc; done) | skip
    case closerIff => simp [hst]
    case outClosedIff =>
      rw [hoc]
      simp
    case allExited =>
      intro _ w hw
      have hfull := startedM_full (K := inputs.length) hst
      have hle : ∀ a ∈ s.lanes, Lane.dones a ≤ 1 := by
        intro a ha
        obtain ⟨j, hj⟩ := List.mem_iff_getElem?.1 ha
        rw [(hlanes j a hj).doneOnce]
        split_ifs <;> omega
      have hone := all_one_of_sum_eq Lane.dones s.lanes hle (by omega) w hw
      obtain ⟨j, hj⟩ := List.mem_iff_getElem?.1 hw
      have hw5 := (hlanes j w hj).doneOnce
      by_contra hne
      rw [if_neg hne] at hw5
      omega
  | closing =>
    rw [hc] at hcl hoc hall
    simp only [hc] at hs
    have hrc : s.outClosed = false := by
      cases hrc : s.outClosed with
      | false => rfl
      | true => exact absurd (hoc.1 hrc) (by simp)
    rw [if_neg (by rw [hrc]; simp)] at hs
    cases hs
    constructor <;> (try simp only []) <;> first | assumption | omega | (intro hc; cases hc; done) | skip
    case closerIff =>
      constructor
      · intro hx
        cases hx
      · intro hx
        exact absurd (hcl.2 hx) (by simp)
    case allExited =>
      intro _
      exact hall (Or.inl rfl)
    case sqTail =>
      intro _
      trivial
    case doneClosed =>
      intro hd
      have := hdc hd
      cases piped
      · simp
      · simpa using this

theorem mergeSquareStep_inv {piped : Bool} {inputs : List (List Int)} {s s' : MergeState}
    (h : MergeInv piped inputs s) (hs : mergeSquareStep s = some s') :
    MergeInv piped inputs s' := by
  obtain ⟨hnp, hlen, hrng, hlanes, hcnt, hcl, hoc, hall, hcons, hsq, hsqc, hsqt, hdc⟩ := h
  unfold mergeSquareStep at hs
  cases hq : s.sq with
  | notStarted => simp [hq] at hs
  | exited => simp [hq] at hs
  | recv =>
    rw [hq] at hsq hsqc hsqt hcons
    simp only [hq] at hs
    rcases Decidable.em (s.outClosed = true) with hz | hz
    swap
    · rw [if_neg hz] at hs
      cases hs
    rw [if_pos hz] at hs
    cases hs
    constructor <;> (try simp only []) <;> first | assumption | omega | (intro hc; cases hc; done) | skip
    case lanesOk =>
      intro j l hj
      have := hlanes j l hj
      rw [hq] at this
      exact this
    case sqIff => simpa using hsq
    case sqClosedIff => simpa using hsqc
    case sqTail =>
      intro _
      exact hz
  | send k n =>
    rw [hq] at hsq hsqc hsqt hcons
    simp only [hq] at hs
    have hp : piped = true ∧ ranging s.caller = true := by
      by_contra hx
      exact absurd (hsq.2 hx) (by simp)
    obtain ⟨hp1, hp2⟩ := hp
    subst hp1
    have hrc : s.sqOutClosed = false := by
      cases hrc : s.sqOutClosed with
      | false => rfl
      | true => exact absurd (hsqc.1 hrc) (by simp)
    rw [if_neg (by rw [hrc]; simp)] at hs
    rcases Decidable.em (s.caller = .drain) with hcd | hcd
    swap
    · rw [if_neg hcd] at hs
      cases hs
    rw [if_pos hcd] at hs
    cases hs
    constructor <;> (try simp only []) <;> first | assumption | omega | (intro hc; cases hc; done) | skip
    case lanesOk =>
      intro j l hj
      obtain ⟨b1, b2, b3, b4, b5⟩ := hlanes j l hj
      refine ⟨b1, b2, b3, b4, ?_⟩
      rw [hq] at b5
      rw [recvAt_append]
      by_cases hkj : k = j
      · simpa [sqHeldAt, hkj, post] using b5
      · simpa [sqHeldAt, hkj] using b5
    case conserve =>
      rw [← hcons]
      simp only [List.map_append, List.map_cons, List.map_nil, ← Multiset.coe_add, sqHeldAll,
        post, if_true, Multiset.coe_nil, add_zero]
    case sqIff => simpa using hsq
    case sqClosedIff => simpa using hsqc
    case sqTail =>
      intro hx
      simp at hx
  | closing =>
    rw [hq] at hsq hsqc hsqt hcons
    simp only [hq] at hs
    have hrc : s.sqOutClosed = false := by
      cases hrc : s.sqOutClosed with
      | false => rfl
      | true => exact absurd (hsqc.1 hrc) (by simp)
    rw [if_neg (by rw [hrc]; simp)] at hs
    cases hs
    constructor <;> (try simp only []) <;> first | assumption | omega | (intro hc; cases hc; done) | skip
    case lanesOk =>
      intro j l hj
      have := hlanes j l hj
      rw [hq] at this
      exact this
    case sqIff => simpa using hsq
    case sqTail =>
      intro _
      exact hsqt (Or.inl rfl)
    case doneClosed =>
      intro hd
      have := hdc hd
      cases piped
      · simpa using this
      · simp

theorem mergeStep_inv (piped : Bool) (inputs : List (List Int)) (s : MergeState)
    (t : MergeTask) (s' : MergeState) (h : MergeInv piped inputs s)
    (hs : mergeStep piped s t = some s') : MergeInv piped inputs s' := by
  unfold mergeStep at hs
  rw [h.noPanic] at hs
  simp only [Bool.false_eq_true, if_false] at hs
  cases t with
  | caller => exact mergeCallerStep_inv h hs
  | producer k => exact producerStep_inv h hs
  | forwarder k => exact forwarderStep_inv h hs
  | closer => exact mergeCloserStep_inv h hs
  | sq => exact mergeSquareStep_inv h hs

theorem merge_reach_inv (piped : Bool) (inputs : List (List Int)) (sched : List MergeTask)
    (s : MergeState) (h : run (mergeStep piped) (mergeInit inputs) sched = some s) :
    MergeInv piped inputs s :=
  inv_run (mergeStep piped) (MergeInv piped inputs) (mergeStep_inv piped inputs) sched
    (mergeInit inputs) s (mergeInit_inv piped inputs) h

/-! ### Consequences of the fan-in invariant -/

theorem merge_closed_exited {piped : Bool} {inputs : List (List Int)} {s : MergeState}
    (h : MergeInv piped inputs s) (hc : s.outClosed = true) :
    s.closer = .exited ∧ ∀ l ∈ s.lanes, l.fwd = .exited ∧ l.src = [] ∧ l.srcClosed = true := by
  have hce := h.outClosedIff.1 hc
  refine ⟨hce, ?_⟩
  intro l hl
  have hex := h.allExited (Or.inr hce) l hl
  obtain ⟨j, hj⟩ := List.mem_iff_getElem?.1 hl
  have hL := h.lanesOk j l hj
  have hcl := hL.tailClosed (Or.inr hex)
  exact ⟨hex, hL.closedNil hcl, hcl⟩

theorem sum_laneRest_zero (piped : Bool) :
    ∀ (ls : List Lane), (∀ l ∈ ls, l.fwd = .exited ∧ l.src = [] ∧ l.srcClosed = true) →
      (ls.map (laneRest piped)).sum = 0
  | [], _ => by simp
  | l :: ls, h => by
    obtain ⟨h1, h2, _⟩ := h l (by simp)
    have ih := sum_laneRest_zero piped ls (fun a ha => h a (by simp [ha]))
    simp [laneRest, h1, h2, fwdHeld, ih]

theorem sqHeldAt_nil_of_all {q : TagSquarePc} (h : sqHeldAll q = []) (j : Nat) :
    sqHeldAt j q = [] := by
  cases q <;> simp [sqHeldAll, sqHeldAt] at *

theorem merge_exhausted {piped : Bool} {inputs : List (List Int)} {s : MergeState}
    (h : MergeInv piped inputs s) (hc : s.outClosed = true) (hq : sqHeldAll s.sq = []) :
    (∀ (j : Nat) (inp : List Int), inputs[j]? = some inp →
        recvAt j s.received = inp.map (post piped)) ∧
    (↑(s.received.map (fun p => p.2)) : Multiset Int) = ↑(inputs.flatten.map (post piped)) ∧
    s.received.length = inputs.flatten.length := by
  obtain ⟨_, hall⟩ := merge_closed_exited h hc
  have hcons := h.conserve
  rw [hq, sum_laneRest_zero piped s.lanes hall] at hcons
  simp only [List.map_nil, Multiset.coe_nil, add_zero] at hcons
  refine ⟨?_, hcons, ?_⟩
  · intro j inp hj
    have hjlt : j < s.lanes.length := by
      rw [h.nLanes]
      exact (List.getElem?_eq_some.1 hj).1
    have hl : s.lanes[j]? = some s.lanes[j] := List.getElem?_eq_getElem hjlt
    have hL := h.lanesOk j _ hl
    obtain ⟨h1, h2, _⟩ := hall _ (List.getElem?_mem hl)
    have hd := hL.data
    rw [sqHeldAt_nil_of_all hq, h1, h2, hj] at hd
    simpa [fwdHeld] using hd
  · have := congrArg Multiset.card hcons
    simp only [Multiset.coe_card, List.length_map] at this
    exact this

theorem merge_done_exhausted {piped : Bool} {inputs : List (List Int)} {s : MergeState}
    (h : MergeInv piped inputs s) (hd : s.caller = .done) :
    s.outClosed = true ∧ sqHeldAll s.sq = [] := by
  have hdc := h.doneClosed hd
  cases piped with
  | false =>
    have hsn : s.sq = .notStarted := h.sqIff.2 (by simp)
    simp only [Bool.false_eq_true, if_false] at hdc
    exact ⟨hdc, by simp [hsn, sqHeldAll]⟩
  | true =>
    simp only [if_true] at hdc
    have hse := h.sqClosedIff.1 hdc
    exact ⟨h.sqTail (Or.inr hse), by simp [hse, sqHeldAll]⟩

/-! ### Progress of the fan-in -/

theorem merge_live_lane {piped : Bool} {inputs : List (List Int)} {s : MergeState}
    (h : MergeInv piped inputs s) (hst : closerStartedM s.caller = true) (hwg : s.wg ≠ 0) :
    ∃ (k : Nat) (l : Lane), s.lanes[k]? = some l ∧ l.fwd ≠ .exited ∧ l.fwd ≠ .notStarted := by
  by_contra hcon
  have hfull := startedM_full (K := inputs.length) hst
  have hns : ∀ (j : Nat) (l : Lane), s.lanes[j]? = some l → l.fwd ≠ .notStarted := by
    intro j l hj hx
    have := (h.lanesOk j l hj).started.1 hx
    have hjlt := (List.getElem?_eq_some.1 hj).1
    have := h.nLanes
    omega
  have hall : ∀ l ∈ s.lanes, Lane.dones l = 1 := by
    intro l hl
    obtain ⟨j, hj⟩ := List.mem_iff_getElem?.1 hl
    rw [(h.lanesOk j l hj).doneOnce, if_pos]
    by_contra hne
    exact hcon ⟨j, l, hj, hne, hns j l hj⟩
  have hsum := sum_eq_length_of_all_one Lane.dones s.lanes hall
  have hc := h.counter
  have hn := h.nLanes
  omega

theorem upstream_progress {piped : Bool} {inputs : List (List Int)} {s : MergeState}
    (h : MergeInv piped inputs s) (hst : closerStartedM s.caller = true)
    (hopen : s.outClosed = false)
    (hready : (piped = true ∧ s.sq = .recv) ∨ (piped = false ∧ s.caller = .drain)) :
    ∃ t, (mergeStep piped s t).isSome = true := by
  have hnp := h.noPanic
  cases hc : s.closer with
  | notStarted =>
    have := h.closerIff.1 hc
    rw [hst] at this
    cases this
  | exited =>
    have := h.outClosedIff.2 hc
    rw [hopen] at this
    cases this
  | closing =>
    refine ⟨.closer, ?_⟩
    simp [mergeStep, hnp, mergeCloserStep, hc, hopen]
  | waiting =>
    by_cases hwg : s.wg = 0
    · refine ⟨.closer, ?_⟩
      simp [mergeStep, hnp, mergeCloserStep, hc, hwg]
    · obtain ⟨k, l, hk, hne, hns⟩ := merge_live_lane h hst hwg
      have hL := h.lanesOk k l hk
      obtain ⟨src, srcClosed, fwd, dones⟩ := l
      simp only at hne hns
      cases fwd with
      | notStarted => exact absurd rfl hns
      | exited => exact absurd rfl hne
      | deferDone =>
        refine ⟨.forwarder k, ?_⟩
        simp only [mergeStep, hnp, Bool.false_eq_true, if_false, forwarderStep, hk]
        split_ifs <;> simp
      | send n =>
        refine ⟨.forwarder k, ?_⟩
        rcases hready with ⟨hp, hq⟩ | ⟨hp, hq⟩
        · simp [mergeStep, hnp, forwarderStep, hk, hopen, hp, hq]
        · simp [mergeStep, hnp, forwarderStep, hk, hopen, hp, hq]
      | recv =>
        cases srcClosed with
        | true =>
          refine ⟨.forwarder k, ?_⟩
          simp [mergeStep, hnp, forwarderStep, hk]
        | false =>
          refine ⟨.producer k, ?_⟩
          cases src with
          | nil => simp [mergeStep, hnp, producerStep, hk]
          | cons n rest => simp [mergeStep, hnp, producerStep, hk]

theorem merge_progress {piped : Bool} {inputs : List (List Int)} {s : MergeState}
    (h : MergeInv piped inputs s) (hnd : s.caller ≠ .done) :
    ∃ t, (mergeStep piped s t).isSome = true := by
  have hnp := h.noPanic
  cases hc : s.caller with
  | done => exact absurd hc hnd
  | addWg =>
    refine ⟨.caller, ?_⟩
    simp only [mergeStep, hnp, Bool.false_eq_true, if_false, mergeCallerStep, hc]
    split_ifs <;> simp
  | spawn k =>
    refine ⟨.caller, ?_⟩
    simp only [mergeStep, hnp, Bool.false_eq_true, if_false, mergeCallerStep, hc]
    cases s.lanes[k]? <;> simp
  | goCloser =>
    exact ⟨.caller, by simp [mergeStep, hnp, mergeCallerStep, hc]⟩
  | callSquare =>
    exact ⟨.caller, by simp [mergeStep, hnp, mergeCallerStep, hc]⟩
  | drain =>
    have hst : closerStartedM s.caller = true := by simp [hc, closerStartedM]
    cases hp : piped with
    | false =>
      subst hp
      cases ho : s.outClosed with
      | true => exact ⟨.caller, by simp [mergeStep, hnp, mergeCallerStep, hc, ho]⟩
      | false => exact upstream_progress h hst ho (Or.inr ⟨rfl, hc⟩)
    | true =>
      subst hp
      cases hq : s.sq with
      | notStarted =>
        have := h.sqIff.1 hq
        simp [hc, ranging] at this
      | exited =>
        have := h.sqClosedIff.2 hq
        exact ⟨.caller, by simp [mergeStep, hnp, mergeCallerStep, hc, this]⟩
      | closing =>
        refine ⟨.sq, ?_⟩
        simp only [mergeStep, hnp, Bool.false_eq_true, if_false, mergeSquareStep, hq]
        split_ifs <;> simp
      | send k n =>
        refine ⟨.sq, ?_⟩
        simp only [mergeStep, hnp, Bool.false_eq_true, if_false, mergeSquareStep, hq, hc]
        split_ifs <;> simp
      | recv =>
        cases ho : s.outClosed with
        | true => exact ⟨.sq, by simp [mergeStep, hnp, mergeSquareStep, hq, ho]⟩
        | false => exact upstream_progress h hst ho (Or.inl ⟨rfl, hq⟩)

theorem merge_done_stuck (piped : Bool) {inputs : List (List Int)} {s : MergeState}
    (h : MergeInv piped inputs s) (hd : s.caller = .done) (t : MergeTask) :
    mergeStep piped s t = none := by
  obtain ⟨ho, hq⟩ := merge_done_exhausted h hd
  obtain ⟨hce, hall⟩ := merge_closed_exited h ho
  cases t with
  | caller => simp [mergeStep, mergeCallerStep, hd]
  | closer => simp [mergeStep, mergeCloserStep, hce]
  | sq =>
    have hdc := h.doneClosed hd
    cases piped with
    | false =>
      have hsn : s.sq = .notStarted := h.sqIff.2 (by simp)
      simp [mergeStep, mergeSquareStep, hsn]
    | true =>
      simp only [if_true] at hdc
      have hse := h.sqClosedIff.1 hdc
      simp [mergeStep, mergeSquareStep, hse]
  | producer k =>
    simp only [mergeStep, producerStep]
    cases hk : s.lanes[k]? with
    | none => simp
    | some l =>
      obtain ⟨h1, h2, h3⟩ := hall l (List.getElem?_mem hk)
      simp [h2, h3]
  | forwarder k =>
    simp only [mergeStep, forwarderStep]
    cases hk : s.lanes[k]? with
    | none => simp
    | some l =>
      obtain ⟨h1, h2, h3⟩ := hall l (List.getElem?_mem hk)
      simp [h1]

/-! ### Every step of the fan-in advances its step counter by one -/

theorem mergeStep_clock {piped : Bool} {inputs : List (List Int)} {s s' : MergeState}
    {t : MergeTask} (h : MergeInv piped inputs s) (hs : mergeStep piped s t = some s') :
    mergeClock piped inputs.length s' = mergeClock piped inputs.length s + 1 := by
  have hinv := mergeStep_inv piped inputs s t s' h hs
  have hnp' := hinv.noPanic
  unfold mergeStep at hs
  rw [h.noPanic] at hs
  simp only [Bool.false_eq_true, if_false] at hs
  cases t with
  | caller =>
    unfold mergeCallerStep at hs
    cases hc : s.caller with
    | addWg =>
      simp only [hc] at hs
      split_ifs at hs
      · cases hs
        simp at hnp'
      · cases hs
        simp only [mergeClock, callerClock, hc]
        omega
    | spawn k =>
      simp only [hc] at hs
      cases hk : s.lanes[k]? with
      | none =>
        simp only [hk] at hs
        cases hs
        have h1 := List.getElem?_eq_none_iff.1 hk
        have h2 := h.inRange
        rw [hc] at h2
        simp only [callerInRange] at h2
        have h3 := h.nLanes
        simp only [mergeClock, callerClock, hc]
        omega
      | some l =>
        simp only [hk] at hs
        cases hs
        have hns := (h.lanesOk k l hk).started.2 (by simp [hc, spawnedM])
        have := sum_map_set laneClock s.lanes k l { l with fwd := .recv } hk
        simp only [laneClock, hns, fwdHeld] at this
        simp only [mergeClock, callerClock, hc]
        omega
    | goCloser =>
      simp only [hc] at hs
      cases hs
      have hn : s.closer = .notStarted := h.closerIff.2 (by simp [hc, closerStartedM])
      cases piped <;> simp only [mergeClock, callerClock, hc, hn, closerClock] <;> simp <;> omega
    | callSquare =>
      simp only [hc] at hs
      cases hs
      have hp := h.inRange
      rw [hc] at hp
      simp only [callerInRange] at hp
      subst hp
      have hn : s.sq = .notStarted := h.sqIff.2 (by simp [hc, ranging])
      simp only [mergeClock, callerClock, hc, hn, sqHeldAll, sqTailClock]
      simp
      omega
    | drain =>
      simp only [hc] at hs
      split_ifs at hs <;> cases hs <;> simp only [mergeClock, callerClock, hc] <;> omega
    | done =>
      simp only [hc] at hs
      cases hs
  | producer k =>
    unfold producerStep at hs
    cases hk : s.lanes[k]? with
    | none => simp [hk] at hs
    | some l =>
      simp only [hk] at hs
      have hsum := fun b => sum_map_set laneClock s.lanes k l b hk
      have hL := h.lanesOk k l hk
      obtain ⟨src, srcClosed, fwd, dones⟩ := l
      cases src with
      | cons n rest =>
        simp only at hs
        split_ifs at hs with hf
        cases hs
        simp only at hf
        subst hf
        have := hsum { src := rest, srcClosed := srcClosed, fwd := .send n, dones := dones }
        simp only [laneClock, fwdHeld, List.length_nil, List.length_singleton] at this
        simp only [mergeClock]
        omega
      | nil =>
        simp only at hs
        split_ifs at hs with hx
        cases hs
        simp only at hx
        have hx' : srcClosed = false := by simpa using hx
        subst hx'
        have := hsum { src := [], srcClosed := true, fwd := fwd, dones := dones }
        simp only [laneClock, if_true, Bool.false_eq_true, if_false] at this
        simp only [mergeClock]
        omega
  | forwarder k =>
    unfold forwarderStep at hs
    cases hk : s.lanes[k]? with
    | none => simp [hk] at hs
    | some l =>
      simp only [hk] at hs
      have hsum := fun b => sum_map_set laneClock s.lanes k l b hk
      obtain ⟨src, srcClosed, fwd, dones⟩ := l
      cases fwd with
      | notStarted => simp at hs
      | exited => simp at hs
      | recv =>
        simp only at hs
        split_ifs at hs with hx
        cases hs
        have := hsum { src := src, srcClosed := srcClosed, fwd := .deferDone, dones := dones }
        simp only [laneClock, fwdHeld, List.length_nil] at this
        simp only [mergeClock]
        omega
      | deferDone =>
        simp only at hs
        split_ifs at hs with hx
        · cases hs
          simp at hnp'
        · cases hs
          have := hsum { src := src, srcClosed := srcClosed, fwd := .exited, dones := dones + 1 }
          simp only [laneClock, fwdHeld, List.length_nil] at this
          simp only [mergeClock]
          omega
      | send n =>
        simp only at hs
        have := hsum { src := src, srcClosed := srcClosed, fwd := .recv, dones := dones }
        simp only [laneClock, fwdHeld, List.length_nil, List.length_singleton] at this
        split_ifs at hs with hx hp hq hd
        · cases hs
          simp at hnp'
        · cases hs
          subst hp
          simp only [mergeClock, hq, sqHeldAll, sqTailClock, List.length_nil,
            List.length_singleton]
          omega
        · cases hs
          have hp' : piped = false := by simpa using hp
          subst hp'
          simp only [mergeClock, List.length_append, List.length_singleton]
          simp only [Bool.false_eq_true, if_false]
          omega
  | closer =>
    unfold mergeCloserStep at hs
    cases hc : s.closer with
    | notStarted => simp [hc] at hs
    | exited => simp [hc] at hs
    | waiting =>
      simp only [hc] at hs
      split_ifs at hs
      cases hs
      simp only [mergeClock, closerClock, hc]
      omega
    | closing =>
      simp only [hc] at hs
      split_ifs at hs
      · cases hs
        simp at hnp'
      · cases hs
        simp only [mergeClock, closerClock, hc]
        omega
  | sq =>
    unfold mergeSquareStep at hs
    cases hq : s.sq with
    | notStarted => simp [hq] at hs
    | exited => simp [hq] at hs
    | recv =>
      simp only [hq] at hs
      split_ifs at hs
      cases hs
      simp only [mergeClock, sqTailClock, hq, sqHeldAll]
    | closing =>
      simp only [hq] at hs
      split_ifs at hs
      · cases hs
        simp at hnp'
      · cases hs
        simp only [mergeClock, sqTailClock, hq, sqHeldAll]
    | send k n =>
      simp only [hq] at hs
      have hp : piped = true := by
        by_contra hx
        have := h.sqIff.2 (fun hh => hx hh.1)
        rw [hq] at this
        cases this
      subst hp
      split_ifs at hs
      · cases hs
        simp at hnp'
      · cases hs
        simp only [mergeClock, sqTailClock, hq, sqHeldAll, List.length_append,
          List.length_singleton, List.length_nil, if_true]
        omega

theorem merge_run_clock (piped : Bool) (inputs : List (List Int)) :
    ∀ (sched : List MergeTask) (s s' : MergeState), MergeInv piped inputs s →
      run (mergeStep piped) s sched = some s' →
      mergeClock piped inputs.length s' = mergeClock piped inputs.length s + sched.length
  | [], s, s', _, h => by
    simp [run] at h
    subst h
    simp
  | t :: ts, s, s', hinv, h => by
    simp only [run] at h
    cases hst : mergeStep piped s t with
    | none => simp [hst] at h
    | some s1 =>
      simp only [hst] at h
      have h1 := mergeStep_clock hinv hst
      have h2 := merge_run_clock piped inputs ts s1 s'
        (mergeStep_inv piped inputs s t s1 hinv hst) h
      simp only [List.length_cons]
      omega

theorem laneClock_le (piped : Bool) (l : Lane) :
    laneClock l ≤ 3 + Multiset.card (laneRest piped l) := by
  obtain ⟨src, srcClosed, fwd, dones⟩ := l
  cases fwd <;> cases srcClosed <;>
    simp [laneClock, laneRest, fwdHeld] <;> omega

theorem sum_laneClock_le (piped : Bool) :
    ∀ (ls : List Lane),
      (ls.map laneClock).sum ≤ 3 * ls.length + Multiset.card (ls.map (laneRest piped)).sum
  | [] => by simp
  | l :: ls => by
    have h1 := laneClock_le piped l
    have h2 := sum_laneClock_le piped ls
    simp only [List.map_cons, List.sum_cons, List.length_cons, Multiset.card_add]
    omega

theorem callerClock_le {piped : Bool} {K : Nat} {c : MergeCallerPc}
    (h : callerInRange piped K c) : callerClock piped K c ≤ K + 4 + (if piped then 1 else 0) := by
  cases c <;> cases piped <;> simp [callerClock, callerInRange] at * <;> omega

theorem sqTailClock_le {piped : Bool} {inputs : List (List Int)} {s : MergeState}
    (h : MergeInv piped inputs s) : sqTailClock s.sq ≤ (if piped then 2 else 0) := by
  cases piped with
  | false =>
    have hsn : s.sq = .notStarted := h.sqIff.2 (by simp)
    simp [hsn, sqTailClock]
  | true =>
    cases s.sq <;> simp [sqTailClock]

theorem mergeClock_le {piped : Bool} {inputs : List (List Int)} {s : MergeState}
    (h : MergeInv piped inputs s) :
    mergeClock piped inputs.length s ≤ mergeBound piped inputs.length inputs.flatten.length := by
  have h1 := callerClock_le h.inRange
  have h2 := sum_laneClock_le piped s.lanes
  have h3 := closerClock_le s.closer
  have h4 := sqTailClock_le h
  have h5 := congrArg Multiset.card h.conserve
  simp only [Multiset.card_add, Multiset.coe_card, List.length_map] at h5
  have h6 := h.nLanes
  unfold mergeClock mergeBound
  cases piped <;> simp only [Bool.false_eq_true, if_false, if_true] at * <;> omega

theorem merge_sched_bound (piped : Bool) (inputs : List (List Int)) (sched : List MergeTask)
    (s : MergeState) (h : run (mergeStep piped) (mergeInit inputs) sched = some s) :
    sched.length ≤ mergeBound piped inputs.length inputs.flatten.length := by
  have h1 := merge_run_clock piped inputs sched (mergeInit inputs) s
    (mergeInit_inv piped inputs) h
  have h2 := mergeClock_le (merge_reach_inv piped inputs sched s h)
  have h3 : mergeClock piped inputs.length (mergeInit inputs) = 0 := by
    have hz : ((mergeInit inputs).lanes.map laneClock).sum = 0 := by
      apply sum_zero_of_all_zero
      intro a ha
      simp only [mergeInit, List.mem_map] at ha
      obtain ⟨l, _, rfl⟩ := ha
      rfl
    simp only [mergeClock, hz]
    simp [mergeInit, callerClock, closerClock, sqHeldAll, sqTailClock]
  omega

/-! ## Results: the worker pool -/

theorem toString_natCast (i : Nat) : toString ((i : Nat) : Int) = toString i := rfl

theorem process_mkJob (i : Nat) :
    process (mkJob (i : Int))
      = { JobID := (i : Int), Value := "Processed: task-" ++ toString i, Error := none } := by
  have hv : "Processed: " ++ ("task-" ++ toString ((i : Nat) : Int))
      = "Processed: task-" ++ toString i := by
    rw [toString_natCast, ← String.append_assoc]
    rfl
  simp only [process, mkJob, hv]

theorem mem_resultsUpTo {r : Result} {n : Nat} (h : r ∈ resultsUpTo n) :
    ∃ i : Nat, 1 ≤ i ∧ i < n ∧ r = process (mkJob (i : Int)) := by
  simp only [resultsUpTo, List.mem_map, List.Ico.mem] at h
  obtain ⟨i, ⟨h1, h2⟩, rfl⟩ := h
  exact ⟨i, h1, h2, rfl⟩

theorem pool_received_mem {W N : Nat} {s : PoolState} (h : PoolInv W N s) {r : Result}
    (hr : r ∈ s.received) : ∃ i : Nat, 1 ≤ i ∧ i ≤ N ∧ r = process (mkJob (i : Int)) := by
  have hmem : r ∈ (↑(resultsUpTo (nextJob N s.mainPc)) : Multiset Result) := by
    rw [← h.conserve]
    simp only [Multiset.mem_add, Multiset.mem_coe]
    exact Or.inr hr
  obtain ⟨i, h1, h2, h3⟩ := mem_resultsUpTo (Multiset.mem_coe.1 hmem)
  have := (nextJob_bounds h.inRange).2
  exact ⟨i, h1, by omega, h3⟩

/-- C1: with `W ≥ 1` workers and `N` jobs numbered `1..N`, every execution of the
worker pool in which `main` has left its range loop has received exactly `N`
results whose JobIDs are `1..N`, each once; every unfinished execution can go on,
and none has more than `4W + 4N + 7` steps, so every execution ends there. -/
theorem pool_exactly_once (W N : Nat) (hW : 1 ≤ W) :
    (∀ (sched : List PoolTask) (s : PoolState),
      run (poolStep W N) poolInit sched = some s → s.mainPc = .done →
        s.received.length = N ∧
        (↑(s.received.map Result.JobID) : Multiset Int)
          = ↑((List.range' 1 N).map (fun i : Nat => (i : Int))) ∧
        (s.received.map Result.JobID).Nodup) ∧
    (∀ (sched : List PoolTask) (s : PoolState),
      run (poolStep W N) poolInit sched = some s → s.mainPc ≠ .done →
        ∃ t, (poolStep W N s t).isSome = true) ∧
    (∀ (sched : List PoolTask) (s : PoolState),
      run (poolStep W N) poolInit sched = some s → sched.length ≤ 4 * W + 4 * N + 7) := by
  refine ⟨?_, ?_, ?_⟩
  · intro sched s h hd
    have hinv := pool_reach_inv W N sched s h
    obtain ⟨hrc, hrb⟩ := hinv.doneClosed hd
    exact pool_exhausted_ids hinv hW hrc hrb
  · intro sched s h hnd
    exact pool_progress (pool_reach_inv W N sched s h) hnd
  · intro sched s h
    exact pool_sched_bound W N sched s h

/-- C1 at `main` as written: three workers, ten jobs, results arriving out of order. -/
theorem pool_exactly_once_witness :
    run (poolStep 3 10) poolInit sampleSchedule = some sampleFinal ∧
    sampleFinal.received.map Result.JobID = [3, 2, 1, 6, 5, 4, 9, 8, 7, 10] ∧
    sampleFinal.received.length = 10 ∧
    (↑(sampleFinal.received.map Result.JobID) : Multiset Int)
      = ↑((List.range' 1 10).map (fun i : Nat => (i : Int))) ∧
    (sampleFinal.received.map Result.JobID).Nodup :=
  ⟨by decide, by decide,
    (pool_exactly_once 3 10 (by decide)).1 sampleSchedule sampleFinal (by decide) (by decide)⟩

/-- C2: the result a worker sends for a job carries the job's ID, the value
`"Processed: " ++ Data` and no error; hence in every execution of the pool each
received result is the one of some job `i` in `1..N`: JobID `i`, value
`"Processed: task-i"`, no error. -/
theorem worker_result_fields (W N : Nat) :
    (∀ job : Job, (process job).JobID = job.ID ∧
        (process job).Value = "Processed: " ++ job.Data ∧ (process job).Error = none) ∧
    (∀ (s s' : PoolState) (k : Nat) (w : Worker) (job : Job),
      s.workers[k]? = some w → w.pc = .send job → workerStep N s k = some s' →
        s'.panicked = false →
        s'.resultsBuf = s.resultsBuf
          ++ [{ JobID := job.ID, Value := "Processed: " ++ job.Data, Error := none }]) ∧
    (∀ (sched : List PoolTask) (s : PoolState),
      run (poolStep W N) poolInit sched = some s →
        ∀ r ∈ s.received, r.Error = none ∧
          ∃ i : Nat, 1 ≤ i ∧ i ≤ N ∧ r.JobID = (i : Int) ∧
            r.Value = "Processed: task-" ++ toString i) := by
  refine ⟨fun job => ⟨rfl, rfl, rfl⟩, ?_, ?_⟩
  · intro s s' k w job hw hpc hs hnp
    unfold workerStep at hs
    simp only [hw, hpc] at hs
    split_ifs at hs with h1 h2
    · cases hs
      simp at hnp
    · cases hs
      rfl
  · intro sched s h r hr
    obtain ⟨i, h1, h2, h3⟩ := pool_received_mem (pool_reach_inv W N sched s h) hr
    rw [process_mkJob] at h3
    subst h3
    exact ⟨rfl, i, h1, h2, rfl, rfl⟩

/-- C2 at `main` as written: the third result to arrive in the sample execution. -/
theorem worker_result_fields_witness :
    run (poolStep 3 10) poolInit sampleSchedule = some sampleFinal ∧
    ({ JobID := 1, Value := "Processed: task-1", Error := none } : Result) ∈ sampleFinal.received ∧
    ∀ r ∈ sampleFinal.received, r.Error = none ∧
      ∃ i : Nat, 1 ≤ i ∧ i ≤ 10 ∧ r.JobID = (i : Int) ∧
        r.Value = "Processed: task-" ++ toString i :=
  ⟨by decide, by decide,
    (worker_result_fields 3 10).2.2 sampleSchedule sampleFinal (by decide)⟩

/-- C6: in every reachable state of the worker pool (`W ≥ 1` workers, `N` jobs) no
panic has occurred; `results` is closed only when all `W` workers have exited,
holding no job; a worker about to send finds `results` open; and when the range
loop of `main` finds `results` closed and empty, or has ended, all `N` results
have been received. -/
theorem pool_close_discipline (W N : Nat) (hW : 1 ≤ W) (sched : List PoolTask)
    (s : PoolState) (h : run (poolStep W N) poolInit sched = some s) :
    s.panicked = false ∧
    (s.resultsClosed = true →
      s.workers.length = W ∧ ∀ w ∈ s.workers, w.pc = .exited ∧ heldOf w = 0) ∧
    (∀ (k : Nat) (w : Worker) (job : Job),
      s.workers[k]? = some w → w.pc = .send job → s.resultsClosed = false) ∧
    (s.resultsClosed = true → s.resultsBuf = [] → s.received.length = N) ∧
    (s.mainPc = .done → s.received.length = N) := by
  have hinv := pool_reach_inv W N sched s h
  refine ⟨hinv.noPanic, ?_, ?_, ?_, ?_⟩
  · intro hc
    obtain ⟨_, hlen, hall⟩ := pool_closed_exited hinv hc
    refine ⟨hlen, fun w hw => ⟨hall w hw, ?_⟩⟩
    simp [heldOf, hall w hw]
  · intro k w job hw hpc
    cases hrc : s.resultsClosed with
    | false => rfl
    | true =>
      have := (pool_closed_exited hinv hrc).2.2 w (List.getElem?_mem hw)
      rw [hpc] at this
      cases this
  · intro hrc hrb
    exact (pool_exhausted_ids hinv hW hrc hrb).1
  · intro hd
    obtain ⟨hrc, hrb⟩ := hinv.doneClosed hd
    exact (pool_exhausted_ids hinv hW hrc hrb).1

/-- C6 at `main` as written, at the end of the sample execution. -/
theorem pool_close_discipline_witness :
    sampleFinal.resultsClosed = true ∧ sampleFinal.panicked = false ∧
    (sampleFinal.resultsClosed = true →
      sampleFinal.workers.length = 3 ∧
        ∀ w ∈ sampleFinal.workers, w.pc = .exited ∧ heldOf w = 0) ∧
    (∀ (k : Nat) (w : Worker) (job : Job),
      sampleFinal.workers[k]? = some w → w.pc = .send job →
        sampleFinal.resultsClosed = false) ∧
    (sampleFinal.resultsClosed = true → sampleFinal.resultsBuf = [] →
      sampleFinal.received.length = 10) ∧
    (sampleFinal.mainPc = .done → sampleFinal.received.length = 10) :=
  ⟨by decide, pool_close_discipline 3 10 (by decide) sampleSchedule sampleFinal (by decide)⟩

/-- C10: in every reachable state of the worker pool (`W ≥ 1` workers, `N` jobs,
both channels of capacity `N`) neither buffer holds more than `N` items, a send of
`main` finds room in `jobs` and a send of a worker finds room in `results`; unless
`main` has finished some task can step; and a state in which no task can step is
the finished one: `main` done with all `N` results, `results` closed and empty,
all `W` workers and the closing goroutine exited. -/
theorem pool_deadlock_free (W N : Nat) (hW : 1 ≤ W) (sched : List PoolTask)
    (s : PoolState) (h : run (poolStep W N) poolInit sched = some s) :
    s.jobsBuf.length ≤ N ∧ s.resultsBuf.length ≤ N ∧
    (∀ i : Nat, s.mainPc = .sendLoop i → i ≤ N → s.jobsBuf.length < N) ∧
    (∀ (k : Nat) (w : Worker) (job : Job),
      s.workers[k]? = some w → w.pc = .send job → s.resultsBuf.length < N) ∧
    (s.mainPc ≠ .done → ∃ t, (poolStep W N s t).isSome = true) ∧
    ((∀ t, poolStep W N s t = none) →
      s.mainPc = .done ∧ s.received.length = N ∧ s.resultsClosed = true ∧
      s.resultsBuf = [] ∧ s.workers.length = W ∧ (∀ w ∈ s.workers, w.pc = .exited) ∧
      s.closer = .exited) := by
  have hinv := pool_reach_inv W N sched s h
  refine ⟨(pool_buffers_le hinv).1, (pool_buffers_le hinv).2, ?_, ?_, ?_, ?_⟩
  · intro i hpc hi
    exact pool_jobs_room hinv hpc hi
  · intro k w job hw hpc
    exact pool_results_room hinv hw hpc
  · intro hnd
    exact pool_progress hinv hnd
  · intro hstuck
    have hd : s.mainPc = .done := by
      by_contra hnd
      obtain ⟨t, ht⟩ := pool_progress hinv hnd
      rw [hstuck t] at ht
      simp at ht
    obtain ⟨hrc, hrb⟩ := hinv.doneClosed hd
    obtain ⟨hce, hlen, hall⟩ := pool_closed_exited hinv hrc
    exact ⟨hd, (pool_exhausted_ids hinv hW hrc hrb).1, hrc, hrb, hlen, hall, hce⟩

/-- C10 at `main` as written, in the middle of the sample execution: one result
buffered, two workers about to send, seven jobs buffered. -/
theorem pool_deadlock_free_witness :
    run (poolStep 3 10) poolInit sampleMidSchedule = some sampleMid ∧
    sampleMid.jobsBuf.length = 7 ∧ sampleMid.resultsBuf.length = 1 ∧
    (∃ t, (poolStep 3 10 sampleMid t).isSome = true) ∧
    (∀ (k : Nat) (w : Worker) (job : Job),
      sampleMid.workers[k]? = some w → w.pc = .send job → sampleMid.resultsBuf.length < 10) :=
  ⟨by decide, by decide, by decide,
    (pool_deadlock_free 3 10 (by decide) sampleMidSchedule sampleMid (by decide)).2.2.2.2.1
      (by decide),
    (pool_deadlock_free 3 10 (by decide) sampleMidSchedule sampleMid (by decide)).2.2.2.1⟩

/-! ## Results: the pipeline -/

theorem wrapInt64_id (x : Int) (h1 : -2 ^ 63 ≤ x) (h2 : x < 2 ^ 63) : wrapInt64 x = x := by
  unfold wrapInt64
  rw [Int.emod_eq_of_lt (by omega) (by omega)]
  omega

theorem wrapInt64_range (x : Int) : -2 ^ 63 ≤ wrapInt64 x ∧ wrapInt64 x < 2 ^ 63 := by
  unfold wrapInt64
  have h1 := Int.emod_nonneg (x + 2 ^ 63) (b := 2 ^ 64) (by norm_num)
  have h2 := Int.emod_lt_of_pos (x + 2 ^ 63) (b := 2 ^ 64) (by norm_num)
  constructor <;> omega

theorem wrapInt64_modEq (x : Int) : wrapInt64 x % 2 ^ 64 = x % 2 ^ 64 := by
  unfold wrapInt64
  omega

theorem squareInt_exact_iff (n : Int) :
    squareInt n = n ^ 2 ↔ -3037000499 ≤ n ∧ n ≤ 3037000499 := by
  constructor
  · intro h
    have hr := wrapInt64_range (n * n)
    unfold squareInt at h
    rw [h] at hr
    constructor <;> nlinarith
  · rintro ⟨h1, h2⟩
    unfold squareInt
    rw [wrapInt64_id]
    · ring
    · nlinarith
    · nlinarith

/-- C3: in every execution of `for v := range square(generate(nums...))` what has
been received is a prefix of the squares of `nums` (as `square` computes them), in
order; once the range loop has ended it is all of them and `square` has closed its
channel; every unfinished execution can go on, and none has more than
`2 * len(nums) + 6` steps, so every execution ends there. -/
theorem pipeline_in_order (nums : List Int) (sched : List PipeTask) (s : PipeState)
    (h : run (pipeStep nums) pipeInit sched = some s) :
    (∃ rest, s.received ++ rest = nums.map squareInt) ∧
    (s.caller = .done →
      s.received = nums.map squareInt ∧ s.received.length = nums.length ∧
        s.sqOutClosed = true) ∧
    (s.caller ≠ .done → ∃ t, (pipeStep nums s t).isSome = true) ∧
    sched.length ≤ 2 * nums.length + 6 := by
  have hinv := pipe_reach_inv nums sched s h
  refine ⟨⟨_, by rw [← hinv.data, List.append_assoc]⟩, ?_, ?_, pipe_sched_bound nums sched s h⟩
  · intro hd
    have hr := pipe_done_received hinv hd
    have hst := hinv.started
    rw [hd] at hst
    refine ⟨hr, by rw [hr, List.length_map], hinv.sqClosedIff.2 hst.2⟩
  · intro hnd
    exact pipe_progress hinv hnd

/-- C3 at `[1, 2, 3]`: the range loop receives `1, 4, 9` and finds the channel closed. -/
theorem pipeline_in_order_witness :
    run (pipeStep [1, 2, 3]) pipeInit pipeSchedule = some pipeFinal ∧
    pipeFinal.received = [1, 4, 9] ∧ pipeFinal.sqOutClosed = true ∧
    pipeFinal.received = [1, 2, 3].map squareInt :=
  ⟨by decide, by decide, by decide,
    ((pipeline_in_order [1, 2, 3] pipeSchedule pipeFinal (by decide)).2.1 (by decide)).1⟩

/-- C8, as the code has it: holding `n`, `square` sends the 64-bit product `n * n`,
which is congruent to `n²` modulo `2^64` and lies in the range of `int`; it is `n²`
itself exactly when `|n| ≤ 3037000499`. -/
theorem square_sends_wrapped_product (s s' : PipeState) (n : Int)
    (hq : s.sq = .send n) (hs : squareStep s = some s') (hnp : s'.panicked = false) :
    s'.received = s.received ++ [squareInt n] ∧
    squareInt n % 2 ^ 64 = n ^ 2 % 2 ^ 64 ∧
    -2 ^ 63 ≤ squareInt n ∧ squareInt n < 2 ^ 63 ∧
    (squareInt n = n ^ 2 ↔ -3037000499 ≤ n ∧ n ≤ 3037000499) := by
  refine ⟨?_, ?_, (wrapInt64_range (n * n)).1, (wrapInt64_range (n * n)).2,
    squareInt_exact_iff n⟩
  · unfold squareStep at hs
    simp only [hq] at hs
    split_ifs at hs with h1 h2
    · cases hs
      simp at hnp
    · cases hs
      rfl
  · unfold squareInt
    rw [wrapInt64_modEq, pow_two]

/-- C8 as amended, at the state in which `square` holds `3`. -/
theorem square_sends_wrapped_product_witness :
    squareHolding.sq = .send 3 ∧
    (squareHolding.received ++ [squareInt 3] = [1, 4, 9]) ∧
    (squareInt 3 = 3 ^ 2 ↔ -3037000499 ≤ (3 : Int) ∧ (3 : Int) ≤ 3037000499) :=
  ⟨by decide, by decide,
    (square_sends_wrapped_product squareHolding
      { squareHolding with received := [1, 4, 9], sq := .recv } 3 (by decide) (by decide)
      (by decide)).2.2.2.2⟩

/-- C8 as stated fails: `3037000500` is a 64-bit `int`, and the pipeline run on it
delivers `-9223372036709301616`, not `3037000500²`. -/
theorem square_overflow_counterexample :
    -2 ^ 63 ≤ (3037000500 : Int) ∧ (3037000500 : Int) < 2 ^ 63 ∧
    run (pipeStep [3037000500]) pipeInit overflowSchedule = some overflowFinal ∧
    overflowFinal.received = [squareInt 3037000500] ∧
    squareInt 3037000500 = -9223372036709301616 ∧
    squareInt 3037000500 ≠ 3037000500 ^ 2 := by
  refine ⟨by decide, by decide, by decide, by decide, by decide, by decide⟩

/-! ### Origins of the merged values -/

theorem mergeStep_origin (piped : Bool) (s : MergeState) (t : MergeTask) (s' : MergeState)
    (h : OriginInv s) (hs : mergeStep piped s t = some s') : OriginInv s' := by
  obtain ⟨h1, h2⟩ := h
  unfold mergeStep at hs
  split at hs
  · cases hs
  cases t with
  | caller =>
    simp only [mergeCallerStep] at hs
    repeat' split at hs
    all_goals first
      | (cases hs; done)
      | (cases hs; exact ⟨by simpa using h1, by simpa using h2⟩)
      | (cases hs; exact ⟨by simpa using h1, by simp_all⟩)
  | producer k =>
    simp only [producerStep] at hs
    repeat' split at hs
    all_goals first
      | (cases hs; done)
      | (cases hs; exact ⟨by simpa using h1, by simpa using h2⟩)
  | forwarder k =>
    simp only [forwarderStep] at hs
    split at hs
    · cases hs
    rename_i l hk
    have hlt : k < s.lanes.length := (List.getElem?_eq_some.1 hk).1
    repeat' split at hs
    all_goals first
      | (cases hs; done)
      | (cases hs; exact ⟨by simpa using h1, by simpa using h2⟩)
      | (cases hs; refine ⟨by simpa using h1, ?_⟩; intro k' n' hq; simp at hq; simp; omega)
      | (cases hs; refine ⟨?_, by simpa using h2⟩; intro p hp; simp at hp; rcases hp with hp | rfl; exact (by simpa using h1 p hp); simpa using hlt)
  | closer =>
    simp only [mergeCloserStep] at hs
    repeat' split at hs
    all_goals first
      | (cases hs; done)
      | (cases hs; exact ⟨by simpa using h1, by simpa using h2⟩)
  | sq =>
    unfold mergeSquareStep at hs
    cases hq : s.sq with
    | notStarted => simp [hq] at hs
    | exited => simp [hq] at hs
    | recv =>
      simp only [hq] at hs
      split at hs
      · cases hs
        exact ⟨by simpa using h1, by simp⟩
      · cases hs
    | closing =>
      simp only [hq] at hs
      split at hs
      · cases hs
        exact ⟨by simpa using h1, by simp⟩
      · cases hs
        exact ⟨by simpa using h1, by simp⟩
    | send k n =>
      have hk := h2 k n hq
      simp only [hq] at hs
      repeat' split at hs
      · cases hs
        refine ⟨h1, ?_⟩
        intro k' n' hq'
        simp only [TagSquarePc.send.injEq] at hq'
        rw [← hq'.1]
        exact hk
      · cases hs
        refine ⟨?_, by simp⟩
        intro p hp
        simp only [List.mem_append, List.mem_singleton] at hp
        rcases hp with hp | rfl
        · exact h1 p hp
        · exact hk
      · cases hs

theorem merge_reach_origin (piped : Bool) (inputs : List (List Int)) (sched : List MergeTask)
    (s : MergeState) (h : run (mergeStep piped) (mergeInit inputs) sched = some s) :
    OriginInv s :=
  inv_run (mergeStep piped) OriginInv (mergeStep_origin piped) sched (mergeInit inputs) s
    ⟨by simp [mergeInit], by simp [mergeInit]⟩ h

theorem coe_flatten_map (f : Int → Int) :
    ∀ (ls : List (List Int)),
      (↑(ls.flatten.map f) : Multiset Int)
        = (ls.map (fun l : List Int => (↑(l.map f) : Multiset Int))).sum
  | [] => by simp
  | l :: ls => by
    have ih := coe_flatten_map f ls
    simp only [List.flatten_cons, List.map_append, List.map_cons, List.sum_cons,
      ← Multiset.coe_add, ih]

theorem sum_eq_countP {α : Type} (f : α → Nat) (p : α → Bool) :
    ∀ (l : List α), (∀ a ∈ l, f a = if p a = true then 1 else 0) →
      (l.map f).sum = l.countP p
  | [], _ => by simp
  | x :: l, h => by
    have h1 := h x (by simp)
    have h2 := sum_eq_countP f p l (fun a ha => h a (by simp [ha]))
    simp only [List.map_cons, List.sum_cons, List.countP_cons, h1, h2]
    omega

/-! ## Results: the fan-in -/

theorem map_post_false (l : List Int) : l.map (post false) = l := by
  have : post false = id := by
    funext n
    simp [post]
  rw [this, List.map_id]

theorem map_post_true (l : List Int) : l.map (post true) = l.map squareInt := by
  have : post true = squareInt := by
    funext n
    simp [post]
  rw [this]

/-- C4: when the range loop over `merge(channels...)` has ended, it has received
exactly as many items as the input channels deliver in total, and the multiset of
received values is the union of the input sequences (of their squares when the
merged channel is piped through `square`); `out` is closed; with no input channel
nothing is received.  Every unfinished execution can go on, and none has more than
`mergeBound` steps, so every execution ends there. -/
theorem merge_delivers_all (piped : Bool) (inputs : List (List Int))
    (sched : List MergeTask) (s : MergeState)
    (h : run (mergeStep piped) (mergeInit inputs) sched = some s) :
    (s.caller = .done →
      s.received.length = (inputs.map List.length).sum ∧
      (piped = false → (↑(s.received.map (fun p => p.2)) : Multiset Int)
        = (inputs.map (fun l : List Int => (↑l : Multiset Int))).sum) ∧
      (piped = true → (↑(s.received.map (fun p => p.2)) : Multiset Int)
        = (inputs.map (fun l : List Int => (↑(l.map squareInt) : Multiset Int))).sum) ∧
      s.outClosed = true ∧ (piped = true → s.sqOutClosed = true) ∧
      (inputs = [] → s.received = [])) ∧
    (s.caller ≠ .done → ∃ t, (mergeStep piped s t).isSome = true) ∧
    sched.length ≤ mergeBound piped inputs.length (inputs.map List.length).sum := by
  have hinv := merge_reach_inv piped inputs sched s h
  have hlen : inputs.flatten.length = (inputs.map List.length).sum := List.length_flatten inputs
  refine ⟨?_, fun hnd => merge_progress hinv hnd, ?_⟩
  · intro hd
    obtain ⟨ho, hq⟩ := merge_done_exhausted hinv hd
    obtain ⟨_, hms, hl⟩ := merge_exhausted hinv ho hq
    refine ⟨by rw [hl, hlen], ?_, ?_, ho, ?_, ?_⟩
    · intro hp
      subst hp
      rw [hms, coe_flatten_map]
      simp only [map_post_false]
    · intro hp
      subst hp
      rw [hms, coe_flatten_map]
      simp only [map_post_true]
    · intro hp
      subst hp
      simpa using hinv.doneClosed hd
    · intro he
      subst he
      simpa using hl
  · rw [← hlen]
    exact merge_sched_bound piped inputs sched s h

/-- C4 at `merge(generate(1, 2, 3))`, at the same piped through `square`, and at
`merge()` with no input. -/
theorem merge_delivers_all_witness :
    (mergeFinal.received.map (fun p => p.2) = [1, 2, 3] ∧
      mergeFinal.received.length = 3 ∧ mergeFinal.outClosed = true) ∧
    (pipedFinal.received.map (fun p => p.2) = [1, 4, 9] ∧
      pipedFinal.received.length = 3 ∧ pipedFinal.sqOutClosed = true) ∧
    (emptyMergeFinal.received = [] ∧ emptyMergeFinal.outClosed = true) :=
  ⟨⟨by decide,
      ((merge_delivers_all false [[1, 2, 3]] mergeSchedule mergeFinal (by decide)).1
        (by decide)).1,
      ((merge_delivers_all false [[1, 2, 3]] mergeSchedule mergeFinal (by decide)).1
        (by decide)).2.2.2.1⟩,
    ⟨by decide,
      ((merge_delivers_all true [[1, 2, 3]] pipedSchedule pipedFinal (by decide)).1
        (by decide)).1,
      ((merge_delivers_all true [[1, 2, 3]] pipedSchedule pipedFinal (by decide)).1
        (by decide)).2.2.2.2.1 rfl⟩,
    ⟨((merge_delivers_all false [] emptyMergeSchedule emptyMergeFinal (by decide)).1
        (by decide)).2.2.2.2.2 rfl,
      ((merge_delivers_all false [] emptyMergeSchedule emptyMergeFinal (by decide)).1
        (by decide)).2.2.2.1⟩⟩

/-- C5: in every reachable state of `merge` no panic has occurred (so no send on a
closed `out` and no second `close(out)`); `out` is closed only when the closing
goroutine has exited and can act no more, and every forwarder has exited, holding
nothing, with its input channel closed and empty; a forwarder about to send finds
`out` open. -/
theorem merge_close_discipline (piped : Bool) (inputs : List (List Int))
    (sched : List MergeTask) (s : MergeState)
    (h : run (mergeStep piped) (mergeInit inputs) sched = some s) :
    s.panicked = false ∧
    (s.outClosed = true →
      s.closer = .exited ∧ mergeCloserStep s = none ∧ s.lanes.length = inputs.length ∧
      ∀ l ∈ s.lanes, l.fwd = .exited ∧ fwdHeld l.fwd = [] ∧ l.src = [] ∧
        l.srcClosed = true) ∧
    (∀ (k : Nat) (l : Lane) (n : Int),
      s.lanes[k]? = some l → l.fwd = .send n → s.outClosed = false) := by
  have hinv := merge_reach_inv piped inputs sched s h
  refine ⟨hinv.noPanic, ?_, ?_⟩
  · intro ho
    obtain ⟨hce, hall⟩ := merge_closed_exited hinv ho
    refine ⟨hce, by simp [mergeCloserStep, hce], hinv.nLanes, ?_⟩
    intro l hl
    obtain ⟨h1, h2, h3⟩ := hall l hl
    exact ⟨h1, by simp [h1, fwdHeld], h2, h3⟩
  · intro k l n hk hf
    cases ho : s.outClosed with
    | false => rfl
    | true =>
      have := ((merge_closed_exited hinv ho).2 l (List.getElem?_mem hk)).1
      rw [hf] at this
      cases this

/-- C5 at the end of the sample execution of `merge(generate(1, 2), generate(3))`. -/
theorem merge_close_discipline_witness :
    twoLaneFinal.outClosed = true ∧ twoLaneFinal.panicked = false ∧
    (twoLaneFinal.outClosed = true →
      twoLaneFinal.closer = .exited ∧ mergeCloserStep twoLaneFinal = none ∧
      twoLaneFinal.lanes.length = 2 ∧
      ∀ l ∈ twoLaneFinal.lanes, l.fwd = .exited ∧ fwdHeld l.fwd = [] ∧ l.src = [] ∧
        l.srcClosed = true) ∧
    (∀ (k : Nat) (l : Lane) (n : Int),
      twoLaneFinal.lanes[k]? = some l → l.fwd = .send n → twoLaneFinal.outClosed = false) :=
  ⟨by decide,
    merge_close_discipline false [[1, 2], [3]] twoLaneSchedule twoLaneFinal (by decide)⟩

/-- C7: in every execution of `for v := range merge(channels...)` each received
value comes from one of the input channels, and the values received from channel
`j` are, in arrival order, a prefix of what channel `j` delivers; once the range
loop has ended they are all of it; with a single input channel the output is that
channel's sequence. -/
theorem merge_keeps_lane_order (inputs : List (List Int)) (sched : List MergeTask)
    (s : MergeState) (h : run (mergeStep false) (mergeInit inputs) sched = some s) :
    (∀ p ∈ s.received, p.1 < inputs.length) ∧
    (∀ (j : Nat) (inp : List Int), inputs[j]? = some inp →
      ∃ rest, recvAt j s.received ++ rest = inp) ∧
    (s.caller = .done → ∀ (j : Nat) (inp : List Int), inputs[j]? = some inp →
      recvAt j s.received = inp) ∧
    (s.caller = .done → ∀ inp : List Int, inputs = [inp] →
      s.received.map (fun p => p.2) = inp) := by
  have hinv := merge_reach_inv false inputs sched s h
  have horig := merge_reach_origin false inputs sched s h
  have hdone : s.caller = .done → ∀ (j : Nat) (inp : List Int), inputs[j]? = some inp →
      recvAt j s.received = inp := by
    intro hd j inp hj
    obtain ⟨ho, hq⟩ := merge_done_exhausted hinv hd
    have := (merge_exhausted hinv ho hq).1 j inp hj
    rwa [map_post_false] at this
  refine ⟨?_, ?_, hdone, ?_⟩
  · intro p hp
    rw [← hinv.nLanes]
    exact horig.1 p hp
  · intro j inp hj
    have hjlt : j < s.lanes.length := by
      rw [hinv.nLanes]
      exact (List.getElem?_eq_some.1 hj).1
    have hl : s.lanes[j]? = some s.lanes[j] := List.getElem?_eq_getElem hjlt
    have hd := (hinv.lanesOk j _ hl).data
    rw [hj] at hd
    simp only [map_post_false, Option.getD_some] at hd
    exact ⟨_, by rw [← hd, List.append_assoc]⟩
  · intro hd inp he
    subst he
    have h0 := hdone hd 0 inp rfl
    have hall : ∀ p ∈ s.received, (decide (p.1 = 0)) = true := by
      intro p hp
      have := horig.1 p hp
      rw [hinv.nLanes] at this
      simp only [List.length_singleton] at this
      simp only [decide_eq_true_eq]
      omega
    unfold recvAt at h0
    rw [List.filter_eq_self.2 hall] at h0
    exact h0

/-- C7 at `merge(generate(1, 2), generate(3))`: the output `3, 1, 2` keeps `1, 2` in
order. -/
theorem merge_keeps_lane_order_witness :
    twoLaneFinal.received = [(1, 3), (0, 1), (0, 2)] ∧
    recvAt 0 twoLaneFinal.received = [1, 2] ∧ recvAt 1 twoLaneFinal.received = [3] ∧
    mergeFinal.received.map (fun p => p.2) = [1, 2, 3] :=
  ⟨by decide,
    (merge_keeps_lane_order [[1, 2], [3]] twoLaneSchedule twoLaneFinal (by decide)).2.2.1
      (by decide) 0 [1, 2] (by decide),
    (merge_keeps_lane_order [[1, 2], [3]] twoLaneSchedule twoLaneFinal (by decide)).2.2.1
      (by decide) 1 [3] (by decide),
    (merge_keeps_lane_order [[1, 2, 3]] mergeSchedule mergeFinal (by decide)).2.2.2
      (by decide) [1, 2, 3] rfl⟩

/-! ## Results: the completion signal -/

theorem pool_waitgroup {W N : Nat} {s : PoolState} (h : PoolInv W N s) :
    (∀ w ∈ s.workers, w.dones ≤ 1 ∧ (w.pc = .exited ↔ w.dones = 1)) ∧
    0 ≤ s.wg ∧
    s.wg = (armed W s.mainPc : Int)
      - ((s.workers.countP (fun w => decide (w.pc = .exited)) : Nat) : Int) ∧
    (s.closer ≠ .notStarted → armed W s.mainPc = W ∧ s.workers.length = W) := by
  have hsum := sum_eq_countP Worker.dones (fun w => decide (w.pc = .exited)) s.workers
    (fun a ha => by simpa using h.doneOnce a ha)
  have hcnt := h.counter
  have hle := List.countP_le_length (fun w : Worker => decide (w.pc = .exited)) (l := s.workers)
  have hsa := spawned_le_armed W s.mainPc
  have hn := h.nWorkers
  refine ⟨?_, by omega, by omega, ?_⟩
  · intro w hw
    have hd := h.doneOnce w hw
    by_cases hx : w.pc = .exited
    · rw [if_pos hx] at hd
      exact ⟨by omega, fun _ => hd, fun _ => hx⟩
    · rw [if_neg hx] at hd
      exact ⟨by omega, fun hy => absurd hy hx, fun hy => by omega⟩
  · intro hc
    have hst : closerStarted s.mainPc = true := by
      cases hcs : closerStarted s.mainPc with
      | true => rfl
      | false => exact absurd (h.closerIff.2 hcs) hc
    have hf := started_full (W := W) hst
    exact ⟨hf.2, by rw [hn, hf.1]⟩

theorem armedM_ge_started {K : Nat} {c : MergeCallerPc} (h : c ≠ .addWg) : armedM K c = K := by
  cases c <;> simp [armedM] at *

theorem merge_waitgroup {piped : Bool} {inputs : List (List Int)} {s : MergeState}
    (h : MergeInv piped inputs s) :
    (∀ l ∈ s.lanes, l.dones ≤ 1 ∧ (l.fwd = .exited ↔ l.dones = 1)) ∧
    0 ≤ s.wg ∧
    s.wg = (armedM inputs.length s.caller : Int)
      - ((s.lanes.countP (fun l => decide (l.fwd = .exited)) : Nat) : Int) ∧
    (s.closer ≠ .notStarted → armedM inputs.length s.caller = inputs.length) := by
  have hone : ∀ l ∈ s.lanes, l.dones = if l.fwd = .exited then 1 else 0 := by
    intro l hl
    obtain ⟨j, hj⟩ := List.mem_iff_getElem?.1 hl
    exact (h.lanesOk j l hj).doneOnce
  have hsum := sum_eq_countP Lane.dones (fun l => decide (l.fwd = .exited)) s.lanes
    (fun a ha => by simpa using hone a ha)
  have hcnt := h.counter
  have hle := List.countP_le_length (fun l : Lane => decide (l.fwd = .exited)) (l := s.lanes)
  have hn := h.nLanes
  have hnonneg : 0 ≤ s.wg := by
    by_cases hc : s.caller = .addWg
    · have hz : (s.lanes.map Lane.dones).sum = 0 := by
        apply sum_zero_of_all_zero
        intro l hl
        obtain ⟨j, hj⟩ := List.mem_iff_getElem?.1 hl
        have hL := h.lanesOk j l hj
        rw [hL.doneOnce, if_neg]
        rw [hL.started.2 (by simp [hc, spawnedM])]
        simp
      rw [hz] at hcnt
      omega
    · have := armedM_ge_started (K := inputs.length) hc
      omega
  refine ⟨?_, hnonneg, by omega, ?_⟩
  · intro l hl
    have hd := hone l hl
    by_cases hx : l.fwd = .exited
    · rw [if_pos hx] at hd
      exact ⟨by omega, fun _ => hd, fun _ => hx⟩
    · rw [if_neg hx] at hd
      exact ⟨by omega, fun hy => absurd hy hx, fun hy => by omega⟩
  · intro hc
    have hst : closerStartedM s.caller = true := by
      cases hcs : closerStartedM s.caller with
      | true => rfl
      | false => exact absurd (h.closerIff.2 hcs) hc
    exact (startedM_full hst).2

/-- C9: in every reachable state of the worker pool and of `merge`, each worker or
forwarder has called `wg.Done()` at most once, and exactly once just when it has
exited; the counter is not negative and equals the number of armed tasks minus the
number of exited ones; and once the closing goroutine exists the counter has been
armed for all tasks (`W` workers, all started; `len(channels)` forwarders). -/
theorem waitgroup_invariant :
    (∀ (W N : Nat) (sched : List PoolTask) (s : PoolState),
      run (poolStep W N) poolInit sched = some s →
        (∀ w ∈ s.workers, w.dones ≤ 1 ∧ (w.pc = .exited ↔ w.dones = 1)) ∧
        0 ≤ s.wg ∧
        s.wg = (armed W s.mainPc : Int)
          - ((s.workers.countP (fun w => decide (w.pc = .exited)) : Nat) : Int) ∧
        (s.closer ≠ .notStarted → armed W s.mainPc = W ∧ s.workers.length = W)) ∧
    (∀ (piped : Bool) (inputs : List (List Int)) (sched : List MergeTask) (s : MergeState),
      run (mergeStep piped) (mergeInit inputs) sched = some s →
        (∀ l ∈ s.lanes, l.dones ≤ 1 ∧ (l.fwd = .exited ↔ l.dones = 1)) ∧
        0 ≤ s.wg ∧
        s.wg = (armedM inputs.length s.caller : Int)
          - ((s.lanes.countP (fun l => decide (l.fwd = .exited)) : Nat) : Int) ∧
        (s.closer ≠ .notStarted → armedM inputs.length s.caller = inputs.length)) :=
  ⟨fun W N sched s h => pool_waitgroup (pool_reach_inv W N sched s h),
    fun piped inputs sched s h => merge_waitgroup (merge_reach_inv piped inputs sched s h)⟩

/-- C9 in the middle of the sample execution of the pool (three workers armed, none
exited, counter `3`) and at the end of `merge(generate(1, 2), generate(3))` (two
forwarders armed, both exited, counter `0`). -/
theorem waitgroup_invariant_witness :
    (sampleMid.wg = 3 ∧ armed 3 sampleMid.mainPc = 3 ∧
      sampleMid.workers.countP (fun w => decide (w.pc = .exited)) = 0 ∧
      sampleMid.wg = (armed 3 sampleMid.mainPc : Int)
        - ((sampleMid.workers.countP (fun w => decide (w.pc = .exited)) : Nat) : Int)) ∧
    (twoLaneFinal.wg = 0 ∧
      twoLaneFinal.lanes.countP (fun l => decide (l.fwd = .exited)) = 2 ∧
      twoLaneFinal.wg = (armedM 2 twoLaneFinal.caller : Int)
        - ((twoLaneFinal.lanes.countP (fun l => decide (l.fwd = .exited)) : Nat) : Int)) :=
  ⟨⟨by decide, by decide, by decide,
      (waitgroup_invariant.1 3 10 sampleMidSchedule sampleMid (by decide)).2.2.1⟩,
    ⟨by decide, by decide,
      (waitgroup_invariant.2 false [[1, 2], [3]] twoLaneSchedule twoLaneFinal
        (by decide)).2.2.1⟩⟩

end Goroutines
